import Mathlib

/-!
Shallow embedding of `src/library_catalog.py` (Library-Catalog-System-using-RedBlackTree).

The Python code implements a CLRS-style red-black tree with parent pointers and a
shared black sentinel (`RBTree`), and a `LibraryCatalog` that maintains two such
trees: `by_id` keyed by `book_id`, and `by_title` keyed by `(title.lower(), book_id)`.

The imperative parent-pointer algorithms are embedded functionally with a zipper:
a "node reference" is a focused subtree together with the list of frames leading
back to the root (innermost frame first).  Rotations and in-place recolorings of
the source become the corresponding reassembled subtrees; each branch below is a
direct transcription of the corresponding lines of the Python code.
-/

set_option maxHeartbeats 1000000

namespace LibCat

/-- Node colors, `RED`/`BLACK` in the source. -/
inductive Color where
  | red
  | black
deriving DecidableEq, Repr

/-- A red-black tree: the sentinel `NIL` is `nil`, real nodes carry a color,
key and value.  (`RBNode` in the source.) -/
inductive Tree (α β : Type) where
  | nil
  | node (c : Color) (l : Tree α β) (k : α) (v : β) (r : Tree α β)
deriving DecidableEq

/-- Which child of its parent a focused subtree is. -/
inductive Dir where
  | left
  | right
deriving DecidableEq

/-- One step of a path from a node to the root: the direction from the parent,
and the parent's color, key, value, and other child.  This is the functional
counterpart of the source's `parent` pointers. -/
structure Frame (α β : Type) where
  d : Dir
  c : Color
  k : α
  v : β
  sib : Tree α β

namespace RBTree

variable {α β : Type}

/-- Rebuild the parent node from a frame and the focused child. -/
def fill (f : Frame α β) (t : Tree α β) : Tree α β :=
  match f.d with
  | .left => .node f.c t f.k f.v f.sib
  | .right => .node f.c f.sib f.k f.v t

/-- Rebuild the parent node, overriding the parent's color
(used when the fix-ups recolor the parent in place). -/
def fillWith (f : Frame α β) (c : Color) (t : Tree α β) : Tree α β :=
  match f.d with
  | .left => .node c t f.k f.v f.sib
  | .right => .node c f.sib f.k f.v t

/-- Plug a subtree back through a whole path, rebuilding the full tree. -/
def plug : Tree α β → List (Frame α β) → Tree α β
  | t, [] => t
  | t, f :: rest => plug (fill f t) rest

/-- Color of a node; the sentinel is black, as in the source. -/
def rootColor : Tree α β → Color
  | .nil => .black
  | .node c _ _ _ _ => c

/-- Paint a node black in place (`x.color = BLACK`). -/
def setBlack : Tree α β → Tree α β
  | .nil => .nil
  | .node _ l k v r => .node .black l k v r

/-- In-order traversal, `RBTree.inorder` in the source: yields `(key, value)`. -/
def inorder : Tree α β → List (α × β)
  | .nil => []
  | .node _ l k v r => inorder l ++ (k, v) :: inorder r

/-- The keys of the tree in order. -/
def keys (t : Tree α β) : List α := (inorder t).map Prod.fst

/-- `RBTree.size`: counts the entries of the in-order traversal. -/
def size (t : Tree α β) : Nat := (inorder t).length

/-- `RBTree._insert_fixup`, transcribed on the zipper.  `z` is the current red
node, the list holds the frames from `z` up to the root.  CLRS case 1 consumes
the parent and grandparent frames and continues up; cases 2/3 terminate after
their rotations, exactly as the `while z.parent.color == RED` loop does.  The
caller blackens the root afterwards (`self.root.color = BLACK`).
A red parent sitting at the root never happens on a tree whose root is black,
so the single-frame-with-red-parent situation cannot arise; we rebuild as-is. -/
def insert_fixup : Tree α β → List (Frame α β) → Tree α β
  | z, [] => z
  | z, [f] => plug z [f]
  | z, f :: g :: rest =>
    if f.c = .black then plug z (f :: g :: rest)
    else
      match g.d with
      | .left =>
        match g.sib with
        | .node .red yl yk yv yr =>
          -- case 1: uncle red: recolor parent/uncle black, grandparent red, move up
          insert_fixup (.node .red (fillWith f .black z) g.k g.v (.node .black yl yk yv yr)) rest
        | y =>
          match f.d, z with
          | .right, .node _ zl zk zv zr =>
            -- case 2 (left-rotate parent) then case 3 (right-rotate grandparent)
            plug (.node .black (.node .red f.sib f.k f.v zl) zk zv (.node .red zr g.k g.v y)) rest
          | .left, _ =>
            -- case 3 only
            plug (.node .black z f.k f.v (.node .red f.sib g.k g.v y)) rest
          | .right, .nil => plug z (f :: g :: rest)  -- z is always a red node; unreachable
      | .right =>
        match g.sib with
        | .node .red yl yk yv yr =>
          insert_fixup (.node .red (.node .black yl yk yv yr) g.k g.v (fillWith f .black z)) rest
        | y =>
          match f.d, z with
          | .left, .node _ zl zk zv zr =>
            plug (.node .black (.node .red y g.k g.v zl) zk zv (.node .red zr f.k f.v f.sib)) rest
          | .right, _ =>
            plug (.node .black (.node .red y g.k g.v f.sib) f.k f.v z) rest
          | .left, .nil => plug z (f :: g :: rest)  -- z is always a red node; unreachable
/-- `RBTree.insert`, the descent loop: compare, go left/right; on an equal key
replace the value in place and return (no fix-up, no recoloring); on reaching
the sentinel, link a new red leaf and run the fix-up, then blacken the root. -/
def insertGo [LinearOrder α] : Tree α β → α → β → List (Frame α β) → Tree α β
  | .nil, k, v, ctx => setBlack (insert_fixup (.node .red .nil k v .nil) ctx)
  | .node c l k' v' r, k, v, ctx =>
    if k < k' then insertGo l k v (⟨.left, c, k', v', r⟩ :: ctx)
    else if k' < k then insertGo r k v (⟨.right, c, k', v', l⟩ :: ctx)
    else plug (.node c l k' v r) ctx

/-- `RBTree.insert(key, value)`. -/
def insert [LinearOrder α] (t : Tree α β) (k : α) (v : β) : Tree α β :=
  insertGo t k v []

/-- `RBTree.search_node`, returning the found node as a zipper position. -/
def search_ctx [LinearOrder α] : Tree α β → α → List (Frame α β) →
    Option (Tree α β × List (Frame α β))
  | .nil, _, _ => none
  | .node c l k' v r, k, ctx =>
    if k = k' then some (.node c l k' v r, ctx)
    else if k < k' then search_ctx l k (⟨.left, c, k', v, r⟩ :: ctx)
    else search_ctx r k (⟨.right, c, k', v, l⟩ :: ctx)

/-- `RBTree.search_node(key)`. -/
def search_node [LinearOrder α] (t : Tree α β) (k : α) :
    Option (Tree α β × List (Frame α β)) :=
  search_ctx t k []

/-- `RBTree.search(key)`: the found node's value. -/
def search [LinearOrder α] (t : Tree α β) (k : α) : Option β :=
  match search_node t k with
  | some (.node _ _ _ v _, _) => some v
  | _ => none

/-- Descend to the minimum of a nonempty subtree (`RBTree._minimum`), as the
in-order successor splice needs it: returns the minimum's color, key, value and
right child, together with the frames (all left edges) from it back up to the
subtree root. -/
def minSplit : Tree α β → Option ((Color × α × β × Tree α β) × List (Frame α β))
  | .nil => none
  | .node c .nil k v r => some ((c, k, v, r), [])
  | .node c l k v r =>
    match minSplit l with
    | some (y, frs) => some (y, frs ++ [⟨.left, c, k, v, r⟩])
    | none => none

/-- `RBTree._delete_fixup`, transcribed on the zipper.  `x` carries the missing
black; the frames lead to the root.  When the sibling is red (CLRS case 1) the
loop is guaranteed to finish on the next iteration, so that iteration is fused
into the same step; case 2 moves to the parent; cases 3/4 terminate with
`x = root` followed by `x.color = BLACK`, i.e. blackening the root.  Branches
that cannot arise on a balanced tree (sentinel sibling, impossible colors)
rebuild the tree unchanged. -/
def delete_fixup : Tree α β → List (Frame α β) → Tree α β
  | x, [] => setBlack x
  | x, f :: rest =>
    if rootColor x = .red then plug (setBlack x) (f :: rest)
    else
      match f.d with
      | .left =>
        match f.sib with
        | .node .red wl wk wv wr =>
          -- case 1: left-rotate the parent; the new sibling is wl
          match wl with
          | .node .black a ak av b =>
            if rootColor a = .black ∧ rootColor b = .black then
              -- then case 2; the loop exits at the reddened parent and blackens it
              plug (.node .black (.node .black x f.k f.v (.node .red a ak av b)) wk wv wr) rest
            else if rootColor b = .black then
              -- then case 3 and case 4
              match a with
              | .node .red a1 ak2 av2 a2 =>
                setBlack (plug (.node .black (.node .red (.node .black x f.k f.v a1) ak2 av2
                  (.node .black a2 ak av b)) wk wv wr) rest)
              | _ => plug x (f :: rest)
            else
              -- then case 4
              setBlack (plug (.node .black (.node .red (.node .black x f.k f.v a) ak av
                (setBlack b)) wk wv wr) rest)
          | _ => plug x (f :: rest)
        | .node .black wl wk wv wr =>
          if rootColor wl = .black ∧ rootColor wr = .black then
            -- case 2: redden the sibling, move to the parent
            delete_fixup (.node f.c x f.k f.v (.node .red wl wk wv wr)) rest
          else if rootColor wr = .black then
            match wl with
            | .node .red u uk uv t2 =>
              -- case 3 then case 4
              setBlack (plug (.node f.c (.node .black x f.k f.v u) uk uv
                (.node .black t2 wk wv wr)) rest)
            | _ => plug x (f :: rest)
          else
            -- case 4
            setBlack (plug (.node f.c (.node .black x f.k f.v wl) wk wv (setBlack wr)) rest)
        | .nil => plug x (f :: rest)
      | .right =>
        match f.sib with
        | .node .red wl wk wv wr =>
          match wr with
          | .node .black a ak av b =>
            if rootColor a = .black ∧ rootColor b = .black then
              plug (.node .black wl wk wv (.node .black (.node .red a ak av b) f.k f.v x)) rest
            else if rootColor a = .black then
              match b with
              | .node .red u uk uv t2 =>
                setBlack (plug (.node .black wl wk wv (.node .red (.node .black a ak av u) uk uv
                  (.node .black t2 f.k f.v x))) rest)
              | _ => plug x (f :: rest)
            else
              setBlack (plug (.node .black wl wk wv (.node .red (setBlack a) ak av
                (.node .black b f.k f.v x))) rest)
          | _ => plug x (f :: rest)
        | .node .black wl wk wv wr =>
          if rootColor wr = .black ∧ rootColor wl = .black then
            delete_fixup (.node f.c (.node .red wl wk wv wr) f.k f.v x) rest
          else if rootColor wl = .black then
            match wr with
            | .node .red u uk uv t2 =>
              setBlack (plug (.node f.c (.node .black wl wk wv u) uk uv
                (.node .black t2 f.k f.v x)) rest)
            | _ => plug x (f :: rest)
          else
            setBlack (plug (.node f.c (setBlack wl) wk wv (.node .black wr f.k f.v x)) rest)
        | .nil => plug x (f :: rest)

/-- `RBTree.delete(key)`: locate the node (equality test first, as in
`search_node`), then the three CLRS removal cases; run the fix-up when the
physically removed node was black.  Returns the new tree and the `bool` the
source returns. -/
def deleteGo [LinearOrder α] : Tree α β → α → List (Frame α β) → Tree α β × Bool
  | .nil, _, ctx => (plug .nil ctx, false)
  | .node c l k' v r, k, ctx =>
    if k = k' then
      match l with
      | .nil =>
        -- z.left == NIL: transplant z with its right child
        if c = .black then (delete_fixup r ctx, true) else (plug r ctx, true)
      | _ =>
        match r with
        | .nil =>
          if c = .black then (delete_fixup l ctx, true) else (plug l ctx, true)
        | _ =>
          -- two children: splice the minimum y of the right subtree into z's
          -- position (keeping z's color); y's right child x takes y's place
          match minSplit r with
          | some ((yc, yk, yv, yr), frs) =>
            let ctx' := frs ++ ⟨.right, c, yk, yv, l⟩ :: ctx
            if yc = .black then (delete_fixup yr ctx', true) else (plug yr ctx', true)
          | none => (plug (.node c l k' v r) ctx, true)  -- r is not nil; unreachable
    else if k < k' then deleteGo l k (⟨.left, c, k', v, r⟩ :: ctx)
    else deleteGo r k (⟨.right, c, k', v, l⟩ :: ctx)

/-- `RBTree.delete(key) -> bool` (plus the resulting tree). -/
def delete [LinearOrder α] (t : Tree α β) (k : α) : Tree α β × Bool :=
  deleteGo t k []

/-- `RBTree._minimum` from a zipper position, extending the path. -/
def minPos : Tree α β → List (Frame α β) → Tree α β × List (Frame α β)
  | .nil, ctx => (.nil, ctx)
  | .node c .nil k v r, ctx => (.node c .nil k v r, ctx)
  | .node c l k v r, ctx => minPos l (⟨.left, c, k, v, r⟩ :: ctx)

/-- The parent-pointer climb of `RBTree._successor`: go up while the current
node is a right child; stop at the first parent reached from the left. -/
def upFromRight : Tree α β → List (Frame α β) → Option (Tree α β × List (Frame α β))
  | _, [] => none
  | x, f :: rest =>
    match f.d with
    | .right => upFromRight (fill f x) rest
    | .left => some (.node f.c x f.k f.v f.sib, rest)

/-- `RBTree._successor(x)` on zipper positions. -/
def successor : Tree α β × List (Frame α β) → Option (Tree α β × List (Frame α β))
  | (.nil, _) => none
  | (.node c l k v r, ctx) =>
    match r with
    | .nil => upFromRight (.node c l k v r) ctx
    | _ => some (minPos r (⟨.right, c, k, v, l⟩ :: ctx))

/-- `RBTree.lower_bound_node`: descend, remembering the last node with
`x.key >= key`, which is the final answer. -/
def lowerBoundGo [LinearOrder α] : Tree α β → α → List (Frame α β) →
    Option (Tree α β × List (Frame α β)) → Option (Tree α β × List (Frame α β))
  | .nil, _, _, lb => lb
  | .node c l k' v r, k, ctx, lb =>
    if k' ≥ k then lowerBoundGo l k (⟨.left, c, k', v, r⟩ :: ctx) (some (.node c l k' v r, ctx))
    else lowerBoundGo r k (⟨.right, c, k', v, l⟩ :: ctx) lb

/-- `RBTree.lower_bound_node(key)`: first node with key ≥ the given key. -/
def lower_bound_node [LinearOrder α] (t : Tree α β) (k : α) :
    Option (Tree α β × List (Frame α β)) :=
  lowerBoundGo t k [] none

end RBTree

/-! ## The library catalog (`Book`, `LibraryCatalog`) -/

/-- Python's `str.lower()` on the title text, modelled per-character.
(`Char.toLower` matches CPython on the ASCII range; the repository's
titles and queries are ASCII.) -/
def str_lower (s : String) : String := ⟨s.data.map Char.toLower⟩

/-- Python's `str.startswith(p)` on code-point sequences. -/
def str_startswith (s p : List Char) : Bool := p.isPrefixOf s

/-- `sys.maxsize` on a 64-bit CPython, used by the title searches as the
smallest-possible id in the lower-bound anchor `(tkey, -sys.maxsize)`. -/
def sys_maxsize : Int := 2 ^ 63 - 1

/-- Key of the `by_title` tree: `(title_lower, book_id)`, compared the way
Python compares tuples — lexicographically, with the text component compared
as Python compares strings: lexicographically on the code-point sequence
(a Python string is exactly its sequence of code points, here `List Char`). -/
abbrev TitleKey := List Char ×ₗ Int

/-- The `Book` dataclass. -/
structure Book where
  book_id : Int
  title : String
  author : String
  year : Int
  copies : Int
deriving DecidableEq, Repr

/-- The `LibraryCatalog`: two red-black trees over the same record set. -/
structure LibraryCatalog where
  by_id : Tree Int Book
  by_title : Tree TitleKey Book

/-- The `by_title` key the catalog computes for a book:
`(book.title.lower(), book.book_id)`. -/
def title_key (b : Book) : TitleKey := toLex ((str_lower b.title).data, b.book_id)

/-- `existing.value = book`: replace a node's value in place. -/
def withValue : Tree α β → β → Tree α β
  | .nil, _ => .nil
  | .node c l k _ r, v => .node c l k v r

namespace LibraryCatalog

/-- `LibraryCatalog.__init__`: two empty trees. -/
def emptyCat : LibraryCatalog := ⟨.nil, .nil⟩

/-- `LibraryCatalog._remove_title_nodes_for_id`: collect every key of the
title tree whose second component is the id, then delete them. -/
def remove_title_nodes_for_id (t : Tree TitleKey Book) (book_id : Int) :
    Tree TitleKey Book :=
  let to_delete := ((RBTree.inorder t).map Prod.fst).filter (fun k => (ofLex k).2 = book_id)
  to_delete.foldl (fun acc k => (RBTree.delete acc k).1) t

/-- `LibraryCatalog.add_book`: upsert.  If the id exists, replace the record
value in the id tree in place, drop the stale title entries for that id and
insert the new title key, reporting `"updated"`; otherwise insert into both
trees and report `"inserted"`. -/
def add_book (cat : LibraryCatalog) (book : Book) : LibraryCatalog × String :=
  match RBTree.search_node cat.by_id book.book_id with
  | some (existing, ctx) =>
    let by_id' := RBTree.plug (withValue existing book) ctx
    let t1 := remove_title_nodes_for_id cat.by_title book.book_id
    (⟨by_id', RBTree.insert t1 (title_key book) book⟩, "updated")
  | none =>
    (⟨RBTree.insert cat.by_id book.book_id book,
      RBTree.insert cat.by_title (title_key book) book⟩, "inserted")

/-- `LibraryCatalog.delete_by_id`: look the record up (to recover its title
key), return `false` if absent, else delete from both trees. -/
def delete_by_id (cat : LibraryCatalog) (book_id : Int) : LibraryCatalog × Bool :=
  match RBTree.search cat.by_id book_id with
  | none => (cat, false)
  | some book =>
    (⟨(RBTree.delete cat.by_id book_id).1,
      (RBTree.delete cat.by_title (title_key book)).1⟩, true)

/-- `LibraryCatalog.search_by_id`. -/
def search_by_id (cat : LibraryCatalog) (book_id : Int) : Option Book :=
  RBTree.search cat.by_id book_id

/-- The `while node: ... node = successor(node)` scan both title searches use.
The fuel argument is a bound on the walk's length (the walk visits each entry
at most once, so `size + 1` always suffices); it only makes the source's
`while` loop structurally recursive. -/
def scanLoop (p : TitleKey → Bool) :
    Nat → Option (Tree TitleKey Book × List (Frame TitleKey Book)) → List Book
  | 0, _ => []
  | _ + 1, none => []
  | fuel + 1, some pos =>
    match pos.1 with
    | .nil => []
    | .node _ _ k v _ =>
      if p k then v :: scanLoop p fuel (RBTree.successor pos) else []

/-- `LibraryCatalog.search_by_title_exact`: case-fold, anchor with a lower
bound at `(tkey, -sys.maxsize)`, then walk successors while the key's first
component equals the query. -/
def search_by_title_exact (cat : LibraryCatalog) (title : String) : List Book :=
  let tkey := (str_lower title).data
  scanLoop (fun k => decide ((ofLex k).1 = tkey)) (RBTree.size cat.by_title + 1)
    (RBTree.lower_bound_node cat.by_title (toLex (tkey, -sys_maxsize)))

/-- `LibraryCatalog.search_by_title_prefix`: same walk, but continue while the
key's first component starts with the folded query. -/
def search_by_title_prefix (cat : LibraryCatalog) (pre : String) : List Book :=
  let p := (str_lower pre).data
  scanLoop (fun k => str_startswith (ofLex k).1 p) (RBTree.size cat.by_title + 1)
    (RBTree.lower_bound_node cat.by_title (toLex (p, -sys_maxsize)))

/-- `LibraryCatalog.list_all_by_id`. -/
def list_all_by_id (cat : LibraryCatalog) : List Book :=
  (RBTree.inorder cat.by_id).map Prod.snd

/-- `LibraryCatalog.list_all_by_title`. -/
def list_all_by_title (cat : LibraryCatalog) : List Book :=
  (RBTree.inorder cat.by_title).map Prod.snd

end LibraryCatalog

/-! ## Bulk load (`Book.from_dict`, `LibraryCatalog.load_from_file`) -/

/-- A parsed JSON object for one record: each field possibly missing.
The file/JSON layer itself is boundary plumbing; this is its output. -/
structure BookDict where
  book_id : Option Int
  title : Option String
  author : Option String
  year : Option Int
  copies : Option Int

/-- `Book.from_dict`: `d["book_id"]` and `d["title"]` raise `KeyError` when
missing; `author`, `year`, `copies` fall back to `""`, `0`, `1`. -/
def Book.from_dict (d : BookDict) : Except String Book :=
  match d.book_id with
  | none => .error "book_id"
  | some i =>
    match d.title with
    | none => .error "title"
    | some t => .ok ⟨i, t, d.author.getD "", d.year.getD 0, d.copies.getD 1⟩

/-- The loop of `load_from_file`: `add_book` per record; an exception from
`from_dict` aborts the loop, leaving the records already applied in place and
surfacing the error to the caller. -/
def loadGo : LibraryCatalog → List BookDict → LibraryCatalog × Option String
  | cat, [] => (cat, none)
  | cat, d :: rest =>
    match Book.from_dict d with
    | .error e => (cat, some e)
    | .ok b => loadGo (LibraryCatalog.add_book cat b).1 rest

/-- `LibraryCatalog.load_from_file` after JSON parsing: reset both trees, then
upsert each parsed record in input order. -/
def load_from_records (arr : List BookDict) : LibraryCatalog × Option String :=
  loadGo LibraryCatalog.emptyCat arr

/-- The catalog states reachable through the public mutators (a fresh or reset
store, upserts, deletions by id, bulk loads). -/
inductive Reachable : LibraryCatalog → Prop
  | start : Reachable LibraryCatalog.emptyCat
  | add {c} (b : Book) : Reachable c → Reachable (LibraryCatalog.add_book c b).1
  | del {c} (i : Int) : Reachable c → Reachable (LibraryCatalog.delete_by_id c i).1
  | load (arr : List BookDict) : Reachable (load_from_records arr).1

/-! ## Verification infrastructure: red-black validity -/

namespace RBTree

variable {α β : Type}

/-- Classic red-black validity: root color `c`, uniform black-height `n`,
no red node with a red child anywhere. -/
inductive IsRB : Tree α β → Color → Nat → Prop where
  | nil : IsRB .nil .black 0
  | red {l r : Tree α β} {k v n} : IsRB l .black n → IsRB r .black n →
      IsRB (.node .red l k v r) .red n
  | black {l r : Tree α β} {k v n c₁ c₂} : IsRB l c₁ n → IsRB r c₂ n →
      IsRB (.node .black l k v r) .black (n + 1)

/-- The root is black (the sentinel counts as black). -/
def rootBlack (t : Tree α β) : Prop := rootColor t = .black

/-- No red node has a red child on any path. -/
def noRedRed : Tree α β → Prop
  | .nil => True
  | .node c l _ _ r =>
    (c = .red → rootColor l = .black ∧ rootColor r = .black) ∧ noRedRed l ∧ noRedRed r

/-- Every path from the root to a sentinel leaf passes exactly `n` black
nodes (the node itself included when black). -/
def bhOk : Tree α β → Nat → Prop
  | .nil, n => n = 0
  | .node .red l _ _ r, n => bhOk l n ∧ bhOk r n
  | .node .black l _ _ r, n => ∃ m, n = m + 1 ∧ bhOk l m ∧ bhOk r m

/-- A tree that is valid except that a red root may have red children — the
shape `delete_fixup` receives after CLRS case 2 reddens the sibling. -/
inductive AlmostRB : Tree α β → Nat → Prop where
  | ofRB {t : Tree α β} {n} : IsRB t .black n → AlmostRB t n
  | redTop {l r : Tree α β} {k v n c₁ c₂} : IsRB l c₁ n → IsRB r c₂ n →
      AlmostRB (.node .red l k v r) n

/-- Validity of a path (list of frames, innermost first): `CtxRB N ctx c n`
means the hole accepts a subtree of root color `c` and black-height `n`, every
sibling hanging off the path is valid, a red parent frame forces a black hole
and itself hangs in a red-accepting hole, and the full tree assembled through
the path is black-rooted with black-height `N`. -/
inductive CtxRB (N : Nat) : List (Frame α β) → Color → Nat → Prop where
  | base : CtxRB N [] .black N
  | redF {rest : List (Frame α β)} {d k v sib n} :
      IsRB sib .black n → CtxRB N rest .red n →
      CtxRB N (⟨d, .red, k, v, sib⟩ :: rest) .black n
  | blackF {rest : List (Frame α β)} {d k v sib n c cs} :
      IsRB sib cs n → CtxRB N rest .black (n + 1) →
      CtxRB N (⟨d, .black, k, v, sib⟩ :: rest) c n

/-- A script of mutating tree operations, as the balance claim quantifies
over sequences of `insert`/`delete`. -/
inductive RBOp (α β : Type) where
  | ins (k : α) (v : β)
  | del (k : α)

/-- One mutating operation. -/
def applyOp [LinearOrder α] (t : Tree α β) : RBOp α β → Tree α β
  | .ins k v => insert t k v
  | .del k => (delete t k).1

/-- Run a script from a fresh `RBTree()` (the empty tree). -/
def applyOps [LinearOrder α] (ops : List (RBOp α β)) : Tree α β :=
  ops.foldl applyOp .nil

/-- The three red-black invariants of the claim: black root, no red node with
a red child, and a uniform black count on all root-to-sentinel paths. -/
def RBInv (t : Tree α β) : Prop := rootBlack t ∧ noRedRed t ∧ ∃ n, bhOk t n

/-- Entries contributed strictly before the hole by a path. -/
def ctxL : List (Frame α β) → List (α × β)
  | [] => []
  | f :: rest =>
    match f.d with
    | .left => ctxL rest
    | .right => ctxL rest ++ inorder f.sib ++ [(f.k, f.v)]

/-- Entries contributed strictly after the hole by a path. -/
def ctxR : List (Frame α β) → List (α × β)
  | [] => []
  | f :: rest =>
    match f.d with
    | .left => (f.k, f.v) :: (inorder f.sib ++ ctxR rest)
    | .right => ctxR rest

/-- Strictly increasing keys: the search-tree ordering invariant. -/
def Ordered [LT α] (t : Tree α β) : Prop := List.Pairwise (· < ·) (keys t)

/-- Insertion into the in-order listing, replacing in place on an equal key —
the list-level effect of `RBTree.insert`. -/
def insList [LinearOrder α] (k : α) (v : β) : List (α × β) → List (α × β)
  | [] => [(k, v)]
  | (k', v') :: rest =>
    if k < k' then (k, v) :: (k', v') :: rest
    else if k' < k then (k', v') :: insList k v rest
    else (k', v) :: rest

/-- Removal from the in-order listing — the list-level effect of
`RBTree.delete`. -/
def delList [LinearOrder α] (k : α) (l : List (α × β)) : List (α × β) :=
  l.filter (fun p => decide (p.1 ≠ k))

/-- Association lookup in the in-order listing. -/
def alookup [LinearOrder α] (k : α) : List (α × β) → Option β
  | [] => none
  | p :: rest => if p.1 = k then some p.2 else alookup k rest

/-- The part of a focused node's subtree from the node itself on, in order. -/
def inorderMid : Tree α β → List (α × β)
  | .nil => []
  | .node _ _ k v r => (k, v) :: inorder r

/-- The in-order sequence of the whole tree from a position on. -/
def seqFrom (p : Tree α β × List (Frame α β)) : List (α × β) :=
  inorderMid p.1 ++ ctxR p.2

/-- Same, for an optional position (`none` ↦ empty). -/
def seqFromOpt : Option (Tree α β × List (Frame α β)) → List (α × β)
  | none => []
  | some p => seqFrom p

/-- In-place value replacement on the in-order listing. -/
def replaceList [LinearOrder α] (k : α) (v : β) (l : List (α × β)) : List (α × β) :=
  l.map (fun p => if p.1 = k then (p.1, v) else p)

/-- The value at a found position. -/
def focusValue : Option (Tree α β × List (Frame α β)) → Option β
  | some (.node _ _ _ v _, _) => some v
  | _ => none

/-- The structural skeleton of a tree: shape, colors, then keys — with the
stored values erased.  Two trees with equal `stripVals` have identical shape,
parent/child links, and node colors. -/
def stripVals : Tree α β → Tree α Unit
  | .nil => .nil
  | .node c l k _ r => .node c (stripVals l) k () (stripVals r)

end RBTree

/-- Well-formedness of a catalog: both trees ordered, the id tree stores each
record under its own id, every title-tree key is exactly
`(lower(title), book_id)` of its record, and either index's record for a given
id is the same record as the other's. -/
structure WF (cat : LibraryCatalog) : Prop where
  ordId : RBTree.Ordered cat.by_id
  ordTitle : RBTree.Ordered cat.by_title
  idKey : ∀ kv ∈ RBTree.inorder cat.by_id, kv.2.book_id = kv.1
  tKey : ∀ kv ∈ RBTree.inorder cat.by_title, kv.1 = title_key kv.2
  t2i : ∀ kv ∈ RBTree.inorder cat.by_title,
    RBTree.alookup kv.2.book_id (RBTree.inorder cat.by_id) = some kv.2
  i2t : ∀ kv ∈ RBTree.inorder cat.by_id,
    RBTree.alookup (title_key kv.2) (RBTree.inorder cat.by_title) = some kv.2

/-- The identifiers stored in the identifier index. -/
def idsOfId (cat : LibraryCatalog) : List Int :=
  (RBTree.inorder cat.by_id).map Prod.fst

/-- The identifiers embedded as second components of the text index's keys. -/
def idsOfTitle (cat : LibraryCatalog) : List Int :=
  (RBTree.inorder cat.by_title).map (fun kv => (ofLex kv.1).2)

/-- C1 exactly as claimed: the two indices hold the same identifier sets, and
for each text-index entry the key's first component equals the `title` field
of the record indexed under that identifier — verbatim, not case-folded. -/
def C1ExactProp (cat : LibraryCatalog) : Prop :=
  (∀ i : Int, i ∈ idsOfId cat ↔ i ∈ idsOfTitle cat) ∧
  ∀ kv ∈ RBTree.inorder cat.by_title,
    ∃ b, LibraryCatalog.search_by_id cat (ofLex kv.1).2 = some b ∧
      (ofLex kv.1).1 = b.title.data

/-- The amended C1: as above, but the key's first component equals the
case-folded (`str.lower()`) title. -/
def C1FoldedProp (cat : LibraryCatalog) : Prop :=
  (∀ i : Int, i ∈ idsOfId cat ↔ i ∈ idsOfTitle cat) ∧
  ∀ kv ∈ RBTree.inorder cat.by_title,
    ∃ b, LibraryCatalog.search_by_id cat (ofLex kv.1).2 = some b ∧
      (ofLex kv.1).1 = (str_lower b.title).data

/-! ## Theorems: red-black balance -/

namespace RBTree

theorem setBlack_isRB {t : Tree α β} {c n} (h : IsRB t c n) :
    ∃ m, IsRB (setBlack t) .black m := by
  cases h with
  | nil => exact ⟨0, .nil⟩
  | red hl hr => exact ⟨_, .black hl hr⟩
  | black hl hr => exact ⟨_, .black hl hr⟩

theorem setBlack_of_black {t : Tree α β} {n} (h : IsRB t .black n) : setBlack t = t := by
  cases h <;> rfl

/-- Plugging through a valid path: a subtree whose root color is black, or
exactly the hole's color, with the hole's black-height, yields a valid tree. -/
theorem plug_isRB {N : Nat} :
    ∀ {ctx : List (Frame α β)} {c n}, CtxRB N ctx c n →
      ∀ {t c'}, IsRB t c' n → (c' = .black ∨ c' = c) → IsRB (plug t ctx) .black N := by
  intro ctx
  induction ctx with
  | nil =>
    intro c n hctx t c' ht hc
    cases hctx
    rcases hc with rfl | rfl <;> simpa [plug] using ht
  | cons f rest ih =>
    obtain ⟨d, fc, k, v, sib⟩ := f
    intro c n hctx t c' ht hc
    cases hctx with
    | redF hsib hrest =>
      have hblack : c' = .black := by rcases hc with rfl | rfl <;> rfl
      subst hblack
      have hfill : IsRB (fill ⟨d, .red, k, v, sib⟩ t) .red n := by
        cases d with
        | left => exact .red ht hsib
        | right => exact .red hsib ht
      simpa [plug] using ih hrest hfill (Or.inr rfl)
    | blackF hsib hrest =>
      have hfill : IsRB (fill ⟨d, .black, k, v, sib⟩ t) .black (n + 1) := by
        cases d with
        | left => exact .black ht hsib
        | right => exact .black hsib ht
      simpa [plug] using ih hrest hfill (Or.inl rfl)

/-- CLRS insertion cases 2/3 (red parent, black or sentinel uncle): the
rotated-and-recolored subtree is valid and the fix-up terminates there. -/
theorem insert_fixup_black_uncle {N n : Nat} {rest : List (Frame α β)}
    (hgrest : CtxRB N rest .black (n + 1))
    (fd gd : Dir) (fk gk : α) (fv gv : β) (fsib gsib z : Tree α β)
    (hsib : IsRB fsib .black n) (hy : IsRB gsib .black n) (hz : IsRB z .red n) :
    ∃ m, IsRB (setBlack (insert_fixup z
      (⟨fd, .red, fk, fv, fsib⟩ :: ⟨gd, .black, gk, gv, gsib⟩ :: rest))) .black m := by
  refine ⟨N, ?_⟩
  cases z with
  | nil => cases hz
  | node zc zl zk zv zr =>
    cases hz with
    | red hzl hzr =>
      cases gsib with
      | nil =>
        cases hy
        cases gd <;> cases fd
        · have hres := plug_isRB hgrest
            (show IsRB (.node .black (.node .red zl zk zv zr) fk fv
              (.node .red fsib gk gv .nil)) .black (0 + 1) from
              .black (.red hzl hzr) (.red hsib IsRB.nil)) (Or.inl rfl)
          simpa [insert_fixup, setBlack_of_black hres] using hres
        · have hres := plug_isRB hgrest
            (show IsRB (.node .black (.node .red fsib fk fv zl) zk zv
              (.node .red zr gk gv .nil)) .black (0 + 1) from
              .black (.red hsib hzl) (.red hzr IsRB.nil)) (Or.inl rfl)
          simpa [insert_fixup, setBlack_of_black hres] using hres
        · have hres := plug_isRB hgrest
            (show IsRB (.node .black (.node .red .nil gk gv zl) zk zv
              (.node .red zr fk fv fsib)) .black (0 + 1) from
              .black (.red IsRB.nil hzl) (.red hzr hsib)) (Or.inl rfl)
          simpa [insert_fixup, setBlack_of_black hres] using hres
        · have hres := plug_isRB hgrest
            (show IsRB (.node .black (.node .red .nil gk gv fsib) fk fv
              (.node .red zl zk zv zr)) .black (0 + 1) from
              .black (.red IsRB.nil hsib) (.red hzl hzr)) (Or.inl rfl)
          simpa [insert_fixup, setBlack_of_black hres] using hres
      | node gc2 gl glk glv gr =>
        cases hy with
        | black h1 h2 =>
          cases gd <;> cases fd
          · have hres := plug_isRB hgrest
              (show IsRB (.node .black (.node .red zl zk zv zr) fk fv
                (.node .red fsib gk gv (.node .black gl glk glv gr))) .black (_ + 1) from
                .black (.red hzl hzr) (.red hsib (.black h1 h2))) (Or.inl rfl)
            simpa [insert_fixup, setBlack_of_black hres] using hres
          · have hres := plug_isRB hgrest
              (show IsRB (.node .black (.node .red fsib fk fv zl) zk zv
                (.node .red zr gk gv (.node .black gl glk glv gr))) .black (_ + 1) from
                .black (.red hsib hzl) (.red hzr (.black h1 h2))) (Or.inl rfl)
            simpa [insert_fixup, setBlack_of_black hres] using hres
          · have hres := plug_isRB hgrest
              (show IsRB (.node .black (.node .red (.node .black gl glk glv gr) gk gv zl) zk zv
                (.node .red zr fk fv fsib)) .black (_ + 1) from
                .black (.red (.black h1 h2) hzl) (.red hzr hsib)) (Or.inl rfl)
            simpa [insert_fixup, setBlack_of_black hres] using hres
          · have hres := plug_isRB hgrest
              (show IsRB (.node .black (.node .red (.node .black gl glk glv gr) gk gv fsib) fk fv
                (.node .red zl zk zv zr)) .black (_ + 1) from
                .black (.red (.black h1 h2) hsib) (.red hzl hzr)) (Or.inl rfl)
            simpa [insert_fixup, setBlack_of_black hres] using hres

/-- The insertion fix-up, fed a red subtree fitting the hole of a valid path,
produces a valid red-black tree once the root is blackened. -/
theorem insert_fixup_isRB {N : Nat} :
    ∀ (fuel : Nat) (ctx : List (Frame α β)) (z : Tree α β) (c : Color) (n : Nat),
      ctx.length ≤ fuel → CtxRB N ctx c n → IsRB z .red n →
      ∃ m, IsRB (setBlack (insert_fixup z ctx)) .black m := by
  intro fuel
  induction fuel with
  | zero =>
    intro ctx z c n hlen hctx hz
    have hnil : ctx = [] := List.eq_nil_of_length_eq_zero (Nat.le_zero.mp hlen)
    subst hnil
    cases hz with
    | red hl hr => exact ⟨_, .black hl hr⟩
  | succ fuel ih =>
    intro ctx z c n hlen hctx hz
    rcases ctx with _ | ⟨f, _ | ⟨g, rest⟩⟩
    · cases hz with
      | red hl hr => exact ⟨_, .black hl hr⟩
    · -- a single frame: by path validity it is black (the root's frame)
      obtain ⟨fd, fc, fk, fv, fsib⟩ := f
      cases hctx with
      | redF hsib hrest => cases hrest
      | blackF hsib hrest =>
        cases hrest
        have hfill : IsRB (fill ⟨fd, .black, fk, fv, fsib⟩ z) .black (n + 1) := by
          cases fd with
          | left => exact .black hz hsib
          | right => exact .black hsib hz
        refine ⟨n + 1, ?_⟩
        have hres : IsRB (plug z [(⟨fd, .black, fk, fv, fsib⟩ : Frame α β)])
            .black (n + 1) := hfill
        simpa [insert_fixup, setBlack_of_black hres] using hres
    · obtain ⟨fd, fc, fk, fv, fsib⟩ := f
      obtain ⟨gd, gc, gk, gv, gsib⟩ := g
      cases hctx with
      | blackF hsib hrest =>
        -- black parent: the loop body never runs
        have hfill : IsRB (fill ⟨fd, .black, fk, fv, fsib⟩ z) .black (n + 1) := by
          cases fd with
          | left => exact .black hz hsib
          | right => exact .black hsib hz
        refine ⟨N, ?_⟩
        have hres : IsRB (plug z ((⟨fd, .black, fk, fv, fsib⟩ : Frame α β) ::
            (⟨gd, gc, gk, gv, gsib⟩ : Frame α β) :: rest)) .black N :=
          plug_isRB hrest hfill (Or.inl rfl)
        simpa [insert_fixup, setBlack_of_black hres] using hres
      | redF hsib hrest =>
        -- red parent: the grandparent frame is black
        cases hrest with
        | blackF hgsib hgrest =>
          cases hgsib with
          | red hyl hyr =>
            -- CLRS case 1: recolor and continue from the grandparent
            rename_i yl yr yk yv
            have hlen' : rest.length ≤ fuel := by
              simp only [List.length_cons] at hlen; omega
            have hfill : IsRB (fillWith ⟨fd, .red, fk, fv, fsib⟩ .black z) .black (n + 1) := by
              cases fd with
              | left => exact .black hz hsib
              | right => exact .black hsib hz
            cases gd with
            | left =>
              have hz' : IsRB (.node .red (fillWith ⟨fd, .red, fk, fv, fsib⟩ .black z) gk gv
                  (.node .black yl yk yv yr)) .red (n + 1) := .red hfill (.black hyl hyr)
              simpa [insert_fixup] using ih rest _ .black (n + 1) hlen' hgrest hz'
            | right =>
              have hz' : IsRB (.node .red (.node .black yl yk yv yr) gk gv
                  (fillWith ⟨fd, .red, fk, fv, fsib⟩ .black z)) .red (n + 1) :=
                .red (.black hyl hyr) hfill
              simpa [insert_fixup] using ih rest _ .black (n + 1) hlen' hgrest hz'
          | nil =>
            exact insert_fixup_black_uncle hgrest fd gd fk gk fv gv fsib .nil z hsib .nil hz
          | black h1 h2 =>
            exact insert_fixup_black_uncle hgrest fd gd fk gk fv gv fsib _ z hsib
              (.black h1 h2) hz

/-- The insertion descent keeps red-black validity: starting from a valid
subtree in a valid path, the result of `insertGo` is a valid red-black tree. -/
theorem insertGo_isRB [LinearOrder α] {N : Nat} {k : α} {v : β} :
    ∀ (t : Tree α β) (ctx : List (Frame α β)) (c : Color) (n : Nat),
      IsRB t c n → CtxRB N ctx c n →
      ∃ m, IsRB (insertGo t k v ctx) .black m := by
  intro t
  induction t with
  | nil =>
    intro ctx c n ht hctx
    cases ht
    simpa [insertGo] using
      insert_fixup_isRB ctx.length ctx (.node .red .nil k v .nil) .black 0 le_rfl hctx
        (.red .nil .nil)
  | node c l k' v' r ihl ihr =>
    intro ctx cc n ht hctx
    by_cases h1 : k < k'
    · cases ht with
      | red hl hr =>
        simpa [insertGo, h1] using ihl (⟨.left, .red, k', v', r⟩ :: ctx) .black n hl
          (.redF hr hctx)
      | black hl hr =>
        simpa [insertGo, h1] using ihl (⟨.left, .black, k', v', r⟩ :: ctx) _ _ hl
          (.blackF hr hctx)
    · by_cases h2 : k' < k
      · cases ht with
        | red hl hr =>
          simpa [insertGo, h1, h2] using ihr (⟨.right, .red, k', v', l⟩ :: ctx) .black n hr
            (.redF hl hctx)
        | black hl hr =>
          simpa [insertGo, h1, h2] using ihr (⟨.right, .black, k', v', l⟩ :: ctx) _ _ hr
            (.blackF hl hctx)
      · -- equal key: value replaced in place, the shape and colors are untouched
        refine ⟨N, ?_⟩
        cases ht with
        | red hl hr =>
          simpa [insertGo, h1, h2] using
            plug_isRB hctx (.red hl hr : IsRB (.node .red l k' v r) .red n) (Or.inr rfl)
        | black hl hr =>
          simpa [insertGo, h1, h2] using
            plug_isRB hctx (.black hl hr : IsRB (.node .black l k' v r) .black _) (Or.inr rfl)

/-- `insert` keeps the red-black invariants. -/
theorem insert_isRB [LinearOrder α] {t : Tree α β} {N : Nat} {k : α} {v : β}
    (h : IsRB t .black N) : ∃ m, IsRB (insert t k v) .black m :=
  insertGo_isRB t [] .black N h .base

@[simp] theorem setBlack_node {c : Color} {l r : Tree α β} {k : α} {v : β} :
    setBlack (.node c l k v r : Tree α β) = .node .black l k v r := rfl

@[simp] theorem rootColor_nil : rootColor (.nil : Tree α β) = .black := rfl

@[simp] theorem rootColor_node {c : Color} {l r : Tree α β} {k : α} {v : β} :
    rootColor (.node c l k v r : Tree α β) = c := rfl

theorem rootColor_of_black {t : Tree α β} {n : Nat} (h : IsRB t .black n) :
    rootColor t = .black := by
  cases h <;> rfl

theorem isRB_coerce_black {t : Tree α β} {c : Color} {n : Nat} (h : IsRB t c n)
    (hb : rootColor t = .black) : IsRB t .black n := by
  cases h with
  | nil => exact .nil
  | red hl hr => simp at hb
  | black hl hr => exact .black hl hr

/-- The deletion fix-up: `x` sits in a hole expecting black-height `n + 1` but
only carries `n` (the "extra black"); the result, after the final blackening,
is a valid red-black tree. -/
theorem delete_fixup_isRB {N : Nat} :
    ∀ (ctx : List (Frame α β)) (x : Tree α β) (c : Color) (n : Nat),
      CtxRB N ctx c (n + 1) → AlmostRB x n →
      ∃ m, IsRB (delete_fixup x ctx) .black m := by
  intro ctx
  induction ctx with
  | nil =>
    intro x c n hctx hx
    cases hx with
    | ofRB h =>
      obtain ⟨m, hm⟩ := setBlack_isRB h
      exact ⟨m, by simpa [delete_fixup] using hm⟩
    | redTop h1 h2 =>
      exact ⟨_, by simpa [delete_fixup] using (IsRB.black h1 h2)⟩
  | cons f rest ih =>
    intro x c n hctx hx
    obtain ⟨fd, fc, fk, fv, fsib⟩ := f
    cases hx with
    | redTop h1 h2 =>
      -- x is red: blacken it in place and stop
      rename_i xl xr xk xv c1 c2
      refine ⟨N, ?_⟩
      have hbig : IsRB (.node .black xl xk xv xr : Tree α β) .black (n + 1) := .black h1 h2
      have hres := plug_isRB hctx hbig (Or.inl rfl)
      simpa [delete_fixup] using hres
    | ofRB hxB =>
      have hxb : rootColor x = .black := rootColor_of_black hxB
      cases hctx with
      | redF hsib hrest =>
        -- red parent frame: the sibling is a black node
        cases fsib with
        | nil => cases hsib
        | node wc wl wk wv wr =>
          cases hsib with
          | black hwl hwr =>
            cases fd with
            | left =>
              by_cases hwrb : rootColor wr = .black
              · by_cases hwlb : rootColor wl = .black
                · -- case 2: the parent is red, the recursion blackens it at once
                  have hx' : AlmostRB (.node .red x fk fv (.node .red wl wk wv wr)) n :=
                    .redTop hxB (.red (isRB_coerce_black hwl hwlb) (isRB_coerce_black hwr hwrb))
                  obtain ⟨m, hm⟩ := ih _ .red n hrest hx'
                  exact ⟨m, by simpa [delete_fixup, hxb, hwlb, hwrb] using hm⟩
                · -- near child red, far child black: case 3 then case 4
                  cases wl with
                  | nil => simp at hwlb
                  | node uc u uk uv t2 =>
                    cases hwl with
                    | black h1 h2 => simp at hwlb
                    | red hu1 hu2 =>
                      refine ⟨N, ?_⟩
                      have hbig : IsRB (.node .red (.node .black x fk fv u) uk uv
                          (.node .black t2 wk wv wr)) .red (n + 1) :=
                        .red (.black hxB hu1) (.black hu2 (isRB_coerce_black hwr hwrb))
                      have hres := plug_isRB hrest hbig (Or.inr rfl)
                      simpa [delete_fixup, hxb, hwlb, hwrb, setBlack_of_black hres] using hres
              · -- far child red: case 4
                cases wr with
                | nil => simp at hwrb
                | node bc b1 bk bv b2 =>
                  cases hwr with
                  | black h1 h2 => simp at hwrb
                  | red hb1 hb2 =>
                    refine ⟨N, ?_⟩
                    have hbig : IsRB (.node .red (.node .black x fk fv wl) wk wv
                        (.node .black b1 bk bv b2)) .red (n + 1) :=
                      .red (.black hxB hwl) (.black hb1 hb2)
                    have hres := plug_isRB hrest hbig (Or.inr rfl)
                    simpa [delete_fixup, hxb, hwrb, setBlack_of_black hres] using hres
            | right =>
              by_cases hwlb : rootColor wl = .black
              · by_cases hwrb : rootColor wr = .black
                · have hx' : AlmostRB (.node .red (.node .red wl wk wv wr) fk fv x) n :=
                    .redTop (.red (isRB_coerce_black hwl hwlb) (isRB_coerce_black hwr hwrb)) hxB
                  obtain ⟨m, hm⟩ := ih _ .red n hrest hx'
                  exact ⟨m, by simpa [delete_fixup, hxb, hwlb, hwrb] using hm⟩
                · -- near child red, far child black: case 3 then case 4
                  cases wr with
                  | nil => simp at hwrb
                  | node uc u uk uv t2 =>
                    cases hwr with
                    | black h1 h2 => simp at hwrb
                    | red hu1 hu2 =>
                      refine ⟨N, ?_⟩
                      have hbig : IsRB (.node .red (.node .black wl wk wv u) uk uv
                          (.node .black t2 fk fv x)) .red (n + 1) :=
                        .red (.black (isRB_coerce_black hwl hwlb) hu1) (.black hu2 hxB)
                      have hres := plug_isRB hrest hbig (Or.inr rfl)
                      simpa [delete_fixup, hxb, hwlb, hwrb, setBlack_of_black hres] using hres
              · -- far child red: case 4
                cases wl with
                | nil => simp at hwlb
                | node bc b1 bk bv b2 =>
                  cases hwl with
                  | black h1 h2 => simp at hwlb
                  | red hb1 hb2 =>
                    refine ⟨N, ?_⟩
                    have hbig : IsRB (.node .red (.node .black b1 bk bv b2) wk wv
                        (.node .black wr fk fv x)) .red (n + 1) :=
                      .red (.black hb1 hb2) (.black hwr hxB)
                    have hres := plug_isRB hrest hbig (Or.inr rfl)
                    simpa [delete_fixup, hxb, hwlb, setBlack_of_black hres] using hres
      | blackF hsib hrest =>
        cases fsib with
        | nil => cases hsib
        | node wc wl wk wv wr =>
          cases hsib with
          | red hwl hwr =>
            -- CLRS case 1 fused with the guaranteed-final next step
            cases fd with
            | left =>
              -- after the rotation the new sibling is wl, a black node
              cases wl with
              | nil => cases hwl
              | node ac a ak av b =>
                cases hwl with
                | black ha hb =>
                  by_cases hbb : rootColor b = .black
                  · by_cases hab : rootColor a = .black
                    · -- then case 2, terminating at the red parent
                      refine ⟨N, ?_⟩
                      have hbig : IsRB (.node .black (.node .black x fk fv
                          (.node .red a ak av b)) wk wv wr) .black (n + 1 + 1) :=
                        .black (.black hxB
                          (.red (isRB_coerce_black ha hab) (isRB_coerce_black hb hbb))) hwr
                      have hres := plug_isRB hrest hbig (Or.inl rfl)
                      simpa [delete_fixup, hxb, hab, hbb, setBlack_of_black hres] using hres
                    · -- then case 3 and case 4
                      cases a with
                      | nil => simp at hab
                      | node a1c a1 ak2 av2 a2 =>
                        cases ha with
                        | black h1 h2 => simp at hab
                        | red ha1 ha2 =>
                          refine ⟨N, ?_⟩
                          have hbig : IsRB (.node .black (.node .red
                              (.node .black x fk fv a1) ak2 av2
                              (.node .black a2 ak av b)) wk wv wr) .black (n + 1 + 1) :=
                            .black (.red (.black hxB ha1)
                              (.black ha2 (isRB_coerce_black hb hbb))) hwr
                          have hres := plug_isRB hrest hbig (Or.inl rfl)
                          simpa [delete_fixup, hxb, hab, hbb, setBlack_of_black hres] using hres
                  · -- then case 4
                    cases b with
                    | nil => simp at hbb
                    | node b1c b1 bk bv b2 =>
                      cases hb with
                      | black h1 h2 => simp at hbb
                      | red hb1 hb2 =>
                        refine ⟨N, ?_⟩
                        have hbig : IsRB (.node .black (.node .red
                            (.node .black x fk fv a) ak av
                            (.node .black b1 bk bv b2)) wk wv wr) .black (n + 1 + 1) :=
                          .black (.red (.black hxB ha) (.black hb1 hb2)) hwr
                        have hres := plug_isRB hrest hbig (Or.inl rfl)
                        simpa [delete_fixup, hxb, hbb, setBlack_of_black hres] using hres
            | right =>
              -- after the rotation the new sibling is wr, a black node
              cases wr with
              | nil => cases hwr
              | node ac a ak av b =>
                cases hwr with
                | black ha hb =>
                  by_cases hab : rootColor a = .black
                  · by_cases hbb : rootColor b = .black
                    · refine ⟨N, ?_⟩
                      have hbig : IsRB (.node .black wl wk wv (.node .black
                          (.node .red a ak av b) fk fv x)) .black (n + 1 + 1) :=
                        .black hwl (.black
                          (.red (isRB_coerce_black ha hab) (isRB_coerce_black hb hbb)) hxB)
                      have hres := plug_isRB hrest hbig (Or.inl rfl)
                      simpa [delete_fixup, hxb, hab, hbb, setBlack_of_black hres] using hres
                    · -- near child red: case 3 then case 4
                      cases b with
                      | nil => simp at hbb
                      | node uc u uk uv t2 =>
                        cases hb with
                        | black h1 h2 => simp at hbb
                        | red hu1 hu2 =>
                          refine ⟨N, ?_⟩
                          have hbig : IsRB (.node .black wl wk wv (.node .red
                              (.node .black a ak av u) uk uv
                              (.node .black t2 fk fv x))) .black (n + 1 + 1) :=
                            .black hwl (.red (.black (isRB_coerce_black ha hab) hu1)
                              (.black hu2 hxB))
                          have hres := plug_isRB hrest hbig (Or.inl rfl)
                          simpa [delete_fixup, hxb, hab, hbb, setBlack_of_black hres] using hres
                  · -- far child red: case 4
                    cases a with
                    | nil => simp at hab
                    | node a1c a1 ak2 av2 a2 =>
                      cases ha with
                      | black h1 h2 => simp at hab
                      | red ha1 ha2 =>
                        refine ⟨N, ?_⟩
                        have hbig : IsRB (.node .black wl wk wv (.node .red
                            (.node .black a1 ak2 av2 a2) ak av
                            (.node .black b fk fv x))) .black (n + 1 + 1) :=
                          .black hwl (.red (.black ha1 ha2) (.black hb hxB))
                        have hres := plug_isRB hrest hbig (Or.inl rfl)
                        simpa [delete_fixup, hxb, hab, setBlack_of_black hres] using hres
          | black hwl hwr =>
            cases fd with
            | left =>
              by_cases hwrb : rootColor wr = .black
              · by_cases hwlb : rootColor wl = .black
                · -- case 2: move to the (black) parent, one black short
                  have hx' : AlmostRB (.node .black x fk fv (.node .red wl wk wv wr)) (n + 1) :=
                    .ofRB (.black hxB
                      (.red (isRB_coerce_black hwl hwlb) (isRB_coerce_black hwr hwrb)))
                  obtain ⟨m, hm⟩ := ih _ .black (n + 1) hrest hx'
                  exact ⟨m, by simpa [delete_fixup, hxb, hwlb, hwrb] using hm⟩
                · -- near child red, far child black: case 3 then case 4
                  cases wl with
                  | nil => simp at hwlb
                  | node uc u uk uv t2 =>
                    cases hwl with
                    | black h1 h2 => simp at hwlb
                    | red hu1 hu2 =>
                      refine ⟨N, ?_⟩
                      have hbig : IsRB (.node .black (.node .black x fk fv u) uk uv
                          (.node .black t2 wk wv wr)) .black (n + 1 + 1) :=
                        .black (.black hxB hu1) (.black hu2 (isRB_coerce_black hwr hwrb))
                      have hres := plug_isRB hrest hbig (Or.inl rfl)
                      simpa [delete_fixup, hxb, hwlb, hwrb, setBlack_of_black hres] using hres
              · -- far child red: case 4
                cases wr with
                | nil => simp at hwrb
                | node bc b1 bk bv b2 =>
                  cases hwr with
                  | black h1 h2 => simp at hwrb
                  | red hb1 hb2 =>
                    refine ⟨N, ?_⟩
                    have hbig : IsRB (.node .black (.node .black x fk fv wl) wk wv
                        (.node .black b1 bk bv b2)) .black (n + 1 + 1) :=
                      .black (.black hxB hwl) (.black hb1 hb2)
                    have hres := plug_isRB hrest hbig (Or.inl rfl)
                    simpa [delete_fixup, hxb, hwrb, setBlack_of_black hres] using hres
            | right =>
              by_cases hwlb : rootColor wl = .black
              · by_cases hwrb : rootColor wr = .black
                · have hx' : AlmostRB (.node .black (.node .red wl wk wv wr) fk fv x) (n + 1) :=
                    .ofRB (.black
                      (.red (isRB_coerce_black hwl hwlb) (isRB_coerce_black hwr hwrb)) hxB)
                  obtain ⟨m, hm⟩ := ih _ .black (n + 1) hrest hx'
                  exact ⟨m, by simpa [delete_fixup, hxb, hwlb, hwrb] using hm⟩
                · -- near child red, far child black: case 3 then case 4
                  cases wr with
                  | nil => simp at hwrb
                  | node uc u uk uv t2 =>
                    cases hwr with
                    | black h1 h2 => simp at hwrb
                    | red hu1 hu2 =>
                      refine ⟨N, ?_⟩
                      have hbig : IsRB (.node .black (.node .black wl wk wv u) uk uv
                          (.node .black t2 fk fv x)) .black (n + 1 + 1) :=
                        .black (.black (isRB_coerce_black hwl hwlb) hu1) (.black hu2 hxB)
                      have hres := plug_isRB hrest hbig (Or.inl rfl)
                      simpa [delete_fixup, hxb, hwlb, hwrb, setBlack_of_black hres] using hres
              · -- far child red: case 4
                cases wl with
                | nil => simp at hwlb
                | node bc b1 bk bv b2 =>
                  cases hwl with
                  | black h1 h2 => simp at hwlb
                  | red hb1 hb2 =>
                    refine ⟨N, ?_⟩
                    have hbig : IsRB (.node .black (.node .black b1 bk bv b2) wk wv
                        (.node .black wr fk fv x)) .black (n + 1 + 1) :=
                      .black (.black hb1 hb2) (.black hwr hxB)
                    have hres := plug_isRB hrest hbig (Or.inl rfl)
                    simpa [delete_fixup, hxb, hwlb, setBlack_of_black hres] using hres

theorem almostRB_of_isRB {t : Tree α β} {c : Color} {n : Nat} (h : IsRB t c n) :
    AlmostRB t n := by
  cases h with
  | nil => exact .ofRB .nil
  | red hl hr => exact .redTop hl hr
  | black hl hr => exact .ofRB (.black hl hr)

/-- The minimum-splice: on a valid subtree in a valid path, `minSplit` returns
the in-order minimum, whose bottom-most position extends the path validly.  A
red minimum is a leaf (its right child is the sentinel); a black minimum has
black-height 1 and any 0-height right child. -/
theorem minSplit_ctx {N : Nat} :
    ∀ (r : Tree α β) (cr : Color) (m : Nat), IsRB r cr m →
      ∀ {yc : Color} {yk : α} {yv : β} {yr : Tree α β} {frs : List (Frame α β)},
        minSplit r = some ((yc, yk, yv, yr), frs) →
        ∀ (ctx2 : List (Frame α β)), CtxRB N ctx2 cr m →
          (yc = .red ∧ yr = .nil ∧ CtxRB N (frs ++ ctx2) .red 0) ∨
          (yc = .black ∧ (∃ cy, IsRB yr cy 0) ∧ CtxRB N (frs ++ ctx2) .black 1) := by
  intro r
  induction r with
  | nil => intro cr m hr yc yk yv yr frs hms; simp [minSplit] at hms
  | node c l k v r2 ihl ihr =>
    intro cr m hr yc yk yv yr frs hms ctx2 hctx
    cases l with
    | nil =>
      simp only [minSplit, Option.some.injEq, Prod.mk.injEq] at hms
      obtain ⟨⟨rfl, rfl, rfl, rfl⟩, rfl⟩ := hms
      cases hr with
      | red hl hr2 =>
        -- a red minimum: its right child is black of height 0, i.e. nil
        cases hl
        cases hr2 with
        | nil => exact Or.inl ⟨rfl, rfl, by simpa using hctx⟩
      | black hl hr2 =>
        cases hl
        exact Or.inr ⟨rfl, ⟨_, hr2⟩, by simpa using hctx⟩
    | node lc ll lk lv lr =>
      rw [show minSplit (.node c (.node lc ll lk lv lr) k v r2) =
        (match minSplit (.node lc ll lk lv lr) with
          | some (y, frs) => some (y, frs ++ [⟨.left, c, k, v, r2⟩])
          | none => none) from rfl] at hms
      rcases hmsl : minSplit (.node lc ll lk lv lr) with _ | ⟨y0, frs0⟩
      · rw [hmsl] at hms; simp at hms
      · rw [hmsl] at hms
        simp only [Option.some.injEq, Prod.mk.injEq] at hms
        obtain ⟨rfl, rfl⟩ := hms
        cases hr with
        | red hl hr2 =>
          have hres := ihl _ _ hl hmsl (⟨.left, .red, k, v, r2⟩ :: ctx2) (.redF hr2 hctx)
          simpa [List.append_assoc] using hres
        | black hl hr2 =>
          have hres := ihl _ _ hl hmsl (⟨.left, .black, k, v, r2⟩ :: ctx2) (.blackF hr2 hctx)
          simpa [List.append_assoc] using hres

/-- The deletion descent and removal keep red-black validity. -/
theorem deleteGo_isRB [LinearOrder α] {N : Nat} {k : α} :
    ∀ (t : Tree α β) (ctx : List (Frame α β)) (c : Color) (n : Nat),
      IsRB t c n → CtxRB N ctx c n →
      ∃ m, IsRB (deleteGo t k ctx).1 .black m := by
  intro t
  induction t with
  | nil =>
    intro ctx c n ht hctx
    cases ht
    exact ⟨N, by simpa [deleteGo] using plug_isRB hctx IsRB.nil (Or.inl rfl)⟩
  | node c l k' v' r ihl ihr =>
    intro ctx cc n ht hctx
    by_cases he : k = k'
    · -- the node to remove
      cases l with
      | nil =>
        cases ht with
        | red hl hr2 =>
          -- a red node with a sentinel left child is a leaf: no fix-up
          refine ⟨N, ?_⟩
          cases hl
          simpa [deleteGo, he] using plug_isRB hctx hr2 (Or.inl rfl)
        | black hl hr2 =>
          cases hl
          obtain ⟨m, hm⟩ := delete_fixup_isRB ctx r .black 0 hctx (almostRB_of_isRB hr2)
          exact ⟨m, by simpa [deleteGo, he] using hm⟩
      | node lc ll lk lv lr =>
        cases r with
        | nil =>
          cases ht with
          | red hl hr2 =>
            refine ⟨N, ?_⟩
            cases hr2
            simpa [deleteGo, he] using plug_isRB hctx hl (Or.inl rfl)
          | black hl hr2 =>
            cases hr2
            obtain ⟨m, hm⟩ :=
              delete_fixup_isRB ctx (.node lc ll lk lv lr) .black 0 hctx (almostRB_of_isRB hl)
            exact ⟨m, by simpa [deleteGo, he] using hm⟩
        | node rc rl rk rv rr =>
          -- two children: splice the successor in
          rcases hms : minSplit (.node rc rl rk rv rr) with _ | ⟨⟨yc, yk, yv, yr⟩, frs⟩
          · refine ⟨N, ?_⟩
            simpa [deleteGo, he, hms] using plug_isRB hctx ht (Or.inr rfl)
          · have hsplit : (yc = .red ∧ yr = .nil ∧
                CtxRB N (frs ++ ⟨.right, c, yk, yv, .node lc ll lk lv lr⟩ :: ctx) .red 0) ∨
                (yc = .black ∧ (∃ cy, IsRB yr cy 0) ∧
                CtxRB N (frs ++ ⟨.right, c, yk, yv, .node lc ll lk lv lr⟩ :: ctx) .black 1) := by
              cases ht with
              | red hl hr2 =>
                exact minSplit_ctx _ _ _ hr2 hms _ (.redF hl hctx)
              | black hl hr2 =>
                exact minSplit_ctx _ _ _ hr2 hms _ (.blackF hl hctx)
            rcases hsplit with ⟨rfl, rfl, hctx'⟩ | ⟨rfl, ⟨cy, hyr⟩, hctx'⟩
            · refine ⟨N, ?_⟩
              simpa [deleteGo, he, hms] using plug_isRB hctx' IsRB.nil (Or.inl rfl)
            · obtain ⟨m, hm⟩ := delete_fixup_isRB _ yr .black 0 hctx' (almostRB_of_isRB hyr)
              exact ⟨m, by simpa [deleteGo, he, hms] using hm⟩
    · by_cases hlt : k < k'
      · cases ht with
        | red hl hr2 =>
          obtain ⟨m, hm⟩ := ihl (⟨.left, .red, k', v', r⟩ :: ctx) .black n hl (.redF hr2 hctx)
          exact ⟨m, by simpa [deleteGo, he, hlt] using hm⟩
        | black hl hr2 =>
          obtain ⟨m, hm⟩ := ihl (⟨.left, .black, k', v', r⟩ :: ctx) _ _ hl (.blackF hr2 hctx)
          exact ⟨m, by simpa [deleteGo, he, hlt] using hm⟩
      · cases ht with
        | red hl hr2 =>
          obtain ⟨m, hm⟩ := ihr (⟨.right, .red, k', v', l⟩ :: ctx) .black n hr2 (.redF hl hctx)
          exact ⟨m, by simpa [deleteGo, he, hlt] using hm⟩
        | black hl hr2 =>
          obtain ⟨m, hm⟩ := ihr (⟨.right, .black, k', v', l⟩ :: ctx) _ _ hr2 (.blackF hl hctx)
          exact ⟨m, by simpa [deleteGo, he, hlt] using hm⟩

/-- `delete` keeps the red-black invariants. -/
theorem delete_isRB [LinearOrder α] {t : Tree α β} {N : Nat} {k : α}
    (h : IsRB t .black N) : ∃ m, IsRB (delete t k).1 .black m :=
  deleteGo_isRB t [] .black N h .base

theorem isRB_noRedRed : ∀ {t : Tree α β} {c : Color} {n : Nat}, IsRB t c n → noRedRed t := by
  intro t c n h
  induction h with
  | nil => trivial
  | red hl hr ihl ihr =>
    exact And.intro (fun _ => And.intro (rootColor_of_black hl) (rootColor_of_black hr))
      (And.intro ihl ihr)
  | black hl hr ihl ihr =>
    exact And.intro (fun h => nomatch h) (And.intro ihl ihr)

theorem isRB_bhOk : ∀ {t : Tree α β} {c : Color} {n : Nat}, IsRB t c n → bhOk t n := by
  intro t c n h
  induction h with
  | nil => rfl
  | red hl hr ihl ihr => exact ⟨ihl, ihr⟩
  | black hl hr ihl ihr =>
    exact Exists.intro _ (And.intro rfl (And.intro ihl ihr))

theorem isRB_inv {t : Tree α β} {n : Nat} (h : IsRB t .black n) : RBInv t :=
  ⟨rootColor_of_black h, isRB_noRedRed h, n, isRB_bhOk h⟩

theorem applyOps_isRB [LinearOrder α] (ops : List (RBOp α β)) :
    ∃ n, IsRB (applyOps ops) .black n := by
  suffices h : ∀ (ops : List (RBOp α β)) (t : Tree α β),
      (∃ n, IsRB t .black n) → ∃ n, IsRB (ops.foldl applyOp t) .black n from
    h ops .nil ⟨0, .nil⟩
  intro ops
  induction ops with
  | nil => exact fun t ht => ht
  | cons op rest ih =>
    intro t ⟨n, ht⟩
    cases op with
    | ins k v => exact ih _ (insert_isRB ht)
    | del k => exact ih _ (delete_isRB ht)

end RBTree

/-! ## Theorems: in-order contents -/

namespace RBTree

@[simp] theorem inorder_nil : inorder (.nil : Tree α β) = [] := rfl

theorem inorder_node {c : Color} {l r : Tree α β} {k : α} {v : β} :
    inorder (.node c l k v r : Tree α β) = inorder l ++ (k, v) :: inorder r := rfl

@[simp] theorem inorder_setBlack (t : Tree α β) : inorder (setBlack t) = inorder t := by
  cases t <;> rfl

@[simp] theorem ctxL_nil : ctxL ([] : List (Frame α β)) = [] := rfl

@[simp] theorem ctxR_nil : ctxR ([] : List (Frame α β)) = [] := rfl

theorem ctxL_cons (f : Frame α β) (rest : List (Frame α β)) :
    ctxL (f :: rest) = match f.d with
      | .left => ctxL rest
      | .right => ctxL rest ++ inorder f.sib ++ [(f.k, f.v)] := rfl

theorem ctxR_cons (f : Frame α β) (rest : List (Frame α β)) :
    ctxR (f :: rest) = match f.d with
      | .left => (f.k, f.v) :: (inorder f.sib ++ ctxR rest)
      | .right => ctxR rest := rfl

theorem inorder_fill (f : Frame α β) (t : Tree α β) :
    inorder (fill f t) = match f.d with
      | .left => inorder t ++ (f.k, f.v) :: inorder f.sib
      | .right => inorder f.sib ++ (f.k, f.v) :: inorder t := by
  obtain ⟨d, c, k, v, sib⟩ := f
  cases d <;> rfl

theorem inorder_fillWith (f : Frame α β) (c : Color) (t : Tree α β) :
    inorder (fillWith f c t) = inorder (fill f t) := by
  obtain ⟨d, fc, k, v, sib⟩ := f
  cases d <;> rfl

/-- The in-order sequence of a plugged tree: left part of the path, focus,
right part of the path. -/
theorem inorder_plug : ∀ (ctx : List (Frame α β)) (t : Tree α β),
    inorder (plug t ctx) = ctxL ctx ++ inorder t ++ ctxR ctx := by
  intro ctx
  induction ctx with
  | nil => intro t; simp [plug]
  | cons f rest ih =>
    intro t
    obtain ⟨d, c, k, v, sib⟩ := f
    cases d with
    | left =>
      simp [plug, ih, inorder_fill, ctxL_cons, ctxR_cons]
    | right =>
      simp [plug, ih, inorder_fill, ctxL_cons, ctxR_cons]

theorem ctxL_append : ∀ (a b : List (Frame α β)), ctxL (a ++ b) = ctxL b ++ ctxL a := by
  intro a b
  induction a with
  | nil => simp
  | cons f rest ih =>
    obtain ⟨d, c, k, v, sib⟩ := f
    cases d <;> simp [ctxL_cons, ih]

theorem ctxR_append : ∀ (a b : List (Frame α β)), ctxR (a ++ b) = ctxR a ++ ctxR b := by
  intro a b
  induction a with
  | nil => simp
  | cons f rest ih =>
    obtain ⟨d, c, k, v, sib⟩ := f
    cases d <;> simp [ctxR_cons, ih]

/-- The insertion fix-up only rotates and recolors: the in-order sequence of
the rebuilt tree is that of plugging `z` straight back. -/
theorem insert_fixup_inorder :
    ∀ (fuel : Nat) (ctx : List (Frame α β)) (z : Tree α β), ctx.length ≤ fuel →
      inorder (insert_fixup z ctx) = inorder (plug z ctx) := by
  intro fuel
  induction fuel with
  | zero =>
    intro ctx z hlen
    have hnil : ctx = [] := List.eq_nil_of_length_eq_zero (Nat.le_zero.mp hlen)
    subst hnil
    rfl
  | succ fuel ih =>
    intro ctx z hlen
    rcases ctx with _ | ⟨f, _ | ⟨g, rest⟩⟩
    · rfl
    · rfl
    · obtain ⟨fd, fc, fk, fv, fsib⟩ := f
      obtain ⟨gd, gc, gk, gv, gsib⟩ := g
      have hlen' : rest.length ≤ fuel := by
        simp only [List.length_cons] at hlen; omega
      by_cases hfc : fc = .black
      · subst hfc; simp [insert_fixup]
      · have hfc' : fc = .red := by
          cases fc with
          | red => rfl
          | black => exact absurd rfl hfc
        subst hfc'
        cases gsib with
        | node gcc yl yk yv yr =>
          cases gcc with
          | red =>
            cases gd <;> cases fd <;>
              simp [insert_fixup, ih rest, hlen', inorder_plug, plug, inorder_fill,
                inorder_fillWith, fill, inorder_node, List.append_assoc]
          | black =>
            cases gd <;> cases fd <;> cases z <;>
              simp [insert_fixup, inorder_plug, plug, inorder_fill, fill, inorder_node,
                List.append_assoc]
        | nil =>
          cases gd <;> cases fd <;> cases z <;>
            simp [insert_fixup, inorder_plug, plug, inorder_fill, fill, inorder_node,
              List.append_assoc]

/-- The deletion fix-up only rotates and recolors. -/
theorem delete_fixup_inorder :
    ∀ (ctx : List (Frame α β)) (x : Tree α β),
      inorder (delete_fixup x ctx) = inorder (plug x ctx) := by
  intro ctx
  induction ctx with
  | nil => intro x; simp [delete_fixup, plug]
  | cons f rest ih =>
    intro x
    obtain ⟨fd, fc, fk, fv, fsib⟩ := f
    simp only [delete_fixup]
    repeat' split
    all_goals try cases fd
    all_goals simp [ih, inorder_plug, plug, fill, inorder_node, List.append_assoc]

theorem insList_append_lt [LinearOrder α] (k k2 : α) (v w : β) (hlt : k < k2)
    (A B : List (α × β)) :
    insList k v (A ++ (k2, w) :: B) = insList k v A ++ (k2, w) :: B := by
  induction A with
  | nil => simp [insList, hlt]
  | cons p rest ih =>
    obtain ⟨a, av⟩ := p
    by_cases h1 : k < a
    · simp [insList, h1]
    · by_cases h2 : a < k
      · simp [insList, h1, h2, ih]
      · simp [insList, h1, h2]

theorem insList_append_ge [LinearOrder α] (k : α) (v : β) :
    ∀ (A B : List (α × β)), (∀ p ∈ A, p.1 < k) →
      insList k v (A ++ B) = A ++ insList k v B := by
  intro A B
  induction A with
  | nil => simp
  | cons p rest ih =>
    intro h
    obtain ⟨a, av⟩ := p
    have ha : a < k := h (a, av) (by simp)
    have h1 : ¬ k < a := not_lt_of_gt ha
    simp [insList, h1, ha, ih (fun q hq => h q (List.mem_cons_of_mem _ hq))]

/-- Splitting the ordering invariant at a node. -/
theorem ordered_node [LinearOrder α] {c : Color} {l r : Tree α β} {k : α} {v : β}
    (h : Ordered (.node c l k v r)) :
    Ordered l ∧ Ordered r ∧ (∀ p ∈ inorder l, p.1 < k) ∧ (∀ p ∈ inorder r, k < p.1) := by
  unfold Ordered keys at h
  rw [inorder_node, List.map_append, List.map_cons, List.pairwise_append] at h
  obtain ⟨hl, hkr, hcross⟩ := h
  rw [List.pairwise_cons] at hkr
  obtain ⟨hkall, hr⟩ := hkr
  refine ⟨hl, hr, ?_, ?_⟩
  · intro p hp
    exact hcross _ (List.mem_map_of_mem _ hp) _ (List.mem_cons_self _ _)
  · intro p hp
    exact hkall _ (List.mem_map_of_mem _ hp)

/-- The in-order contents after the insertion descent: the sorted-insert (or
in-place replacement) of `(k, v)`, between the path's two sides. -/
theorem insertGo_inorder [LinearOrder α] (k : α) (v : β) :
    ∀ (t : Tree α β) (ctx : List (Frame α β)), Ordered t →
      inorder (insertGo t k v ctx) = ctxL ctx ++ insList k v (inorder t) ++ ctxR ctx := by
  intro t
  induction t with
  | nil =>
    intro ctx _
    rw [show insertGo (.nil : Tree α β) k v ctx =
      setBlack (insert_fixup (.node .red .nil k v .nil) ctx) from rfl]
    rw [inorder_setBlack, insert_fixup_inorder ctx.length ctx _ le_rfl, inorder_plug]
    simp [insList, inorder_node]
  | node c l k' v' r ihl ihr =>
    intro ctx ho
    obtain ⟨hol, hor, hlk, hrk⟩ := ordered_node ho
    by_cases h1 : k < k'
    · rw [show insertGo (.node c l k' v' r) k v ctx =
        insertGo l k v (⟨.left, c, k', v', r⟩ :: ctx) from by simp [insertGo, h1]]
      rw [ihl _ hol]
      simp [ctxL_cons, ctxR_cons, inorder_node, insList_append_lt k k' v v' h1,
        List.append_assoc]
    · by_cases h2 : k' < k
      · rw [show insertGo (.node c l k' v' r) k v ctx =
          insertGo r k v (⟨.right, c, k', v', l⟩ :: ctx) from by simp [insertGo, h1, h2]]
        rw [ihr _ hor]
        have hall : ∀ p ∈ (inorder l ++ [(k', v')]), p.1 < k := by
          intro p hp
          rcases List.mem_append.mp hp with hp | hp
          · exact lt_trans (hlk p hp) h2
          · rcases List.mem_singleton.mp hp with rfl
            exact h2
        rw [inorder_node, List.append_cons (inorder l) (k', v') (inorder r),
          insList_append_ge k v _ _ hall]
        simp [ctxL_cons, ctxR_cons, List.append_assoc]
      · have he : k = k' := le_antisymm (not_lt.mp h2) (not_lt.mp h1)
        subst he
        rw [show insertGo (.node c l k v' r) k v ctx =
          plug (.node c l k v r) ctx from by simp [insertGo]]
        rw [inorder_plug]
        simp only [inorder_node]
        rw [insList_append_ge k v _ _ (fun p hp => hlk p hp)]
        simp [insList]

/-- `insert` on an ordered tree performs the sorted insert (replacing the
value in place on an equal key) on the in-order listing. -/
theorem insert_inorder [LinearOrder α] {t : Tree α β} (k : α) (v : β) (h : Ordered t) :
    inorder (insert t k v) = insList k v (inorder t) := by
  have := insertGo_inorder k v t [] h
  simpa [insert] using this

theorem plug_append : ∀ (a b : List (Frame α β)) (t : Tree α β),
    plug t (a ++ b) = plug (plug t a) b := by
  intro a
  induction a with
  | nil => intro b t; rfl
  | cons f rest ih => intro b t; simp [plug, ih]

theorem minSplit_plug : ∀ (t : Tree α β) (yc : Color) (yk : α) (yv : β)
    (yr : Tree α β) (frs : List (Frame α β)),
    minSplit t = some ((yc, yk, yv, yr), frs) →
    plug (.node yc .nil yk yv yr) frs = t ∧ ctxL frs = [] := by
  intro t
  induction t with
  | nil => intro yc yk yv yr frs h; simp [minSplit] at h
  | node c l k v r ihl ihr =>
    intro yc yk yv yr frs h
    cases l with
    | nil =>
      simp only [minSplit, Option.some.injEq, Prod.mk.injEq] at h
      obtain ⟨⟨rfl, rfl, rfl, rfl⟩, rfl⟩ := h
      exact ⟨rfl, rfl⟩
    | node lc ll lk lv lr =>
      rw [show minSplit (.node c (.node lc ll lk lv lr) k v r) =
        (match minSplit (.node lc ll lk lv lr) with
          | some (y, frs) => some (y, frs ++ [⟨.left, c, k, v, r⟩])
          | none => none) from rfl] at h
      rcases hmsl : minSplit (.node lc ll lk lv lr) with _ | ⟨⟨yc0, yk0, yv0, yr0⟩, frs0⟩
      · rw [hmsl] at h; simp at h
      · rw [hmsl] at h
        simp only [Option.some.injEq, Prod.mk.injEq] at h
        obtain ⟨⟨rfl, rfl, rfl, rfl⟩, rfl⟩ := h
        obtain ⟨hplug, hctxl⟩ := ihl _ _ _ _ _ hmsl
        constructor
        · rw [plug_append, hplug]; rfl
        · rw [ctxL_append, hctxl]; rfl

theorem minSplit_some : ∀ (t : Tree α β), t ≠ .nil →
    ∃ y frs, minSplit t = some (y, frs) := by
  intro t
  induction t with
  | nil => intro h; exact absurd rfl h
  | node c l k v r ihl ihr =>
    intro _
    cases l with
    | nil => exact ⟨(c, k, v, r), [], rfl⟩
    | node lc ll lk lv lr =>
      obtain ⟨y, frs, hy⟩ := ihl (by simp)
      refine ⟨y, frs ++ [⟨.left, c, k, v, r⟩], ?_⟩
      rw [show minSplit (.node c (.node lc ll lk lv lr) k v r) =
        (match minSplit (.node lc ll lk lv lr) with
          | some (y, frs) => some (y, frs ++ [⟨.left, c, k, v, r⟩])
          | none => none) from rfl, hy]

theorem alookup_append [LinearOrder α] (k : α) (A B : List (α × β)) :
    alookup k (A ++ B) = match alookup k A with
      | some v => some v
      | none => alookup k B := by
  induction A with
  | nil => simp [alookup]
  | cons p rest ih =>
    by_cases h : p.1 = k <;> simp [alookup, h, ih]

theorem alookup_eq_none [LinearOrder α] (k : α) :
    ∀ (l : List (α × β)), k ∉ l.map Prod.fst → alookup k l = none := by
  intro l
  induction l with
  | nil => intro _; rfl
  | cons p rest ih =>
    intro h
    simp only [List.map_cons, List.mem_cons] at h
    push_neg at h
    have h1 : ¬ p.1 = k := fun he => h.1 he.symm
    simp [alookup, h1, ih h.2]

theorem alookup_mem [LinearOrder α] (k : α) :
    ∀ (l : List (α × β)) (v : β), alookup k l = some v → (k, v) ∈ l := by
  intro l
  induction l with
  | nil => intro v h; simp [alookup] at h
  | cons p rest ih =>
    intro v h
    by_cases hp : p.1 = k
    · rw [show alookup k (p :: rest) = some p.2 from by simp [alookup, hp]] at h
      obtain rfl : p.2 = v := by simpa using h
      have : p = (k, p.2) := by
        rw [← hp]
      rw [← this]
      exact List.mem_cons_self _ _
    · simp only [alookup, hp, if_false] at h
      exact List.mem_cons_of_mem _ (ih _ h)

theorem replaceList_eq_self [LinearOrder α] (k : α) (v : β) :
    ∀ (l : List (α × β)), (∀ p ∈ l, p.1 ≠ k) → replaceList k v l = l := by
  intro l
  induction l with
  | nil => intro _; rfl
  | cons p rest ih =>
    intro h
    have h1 : ¬ p.1 = k := h p (List.mem_cons_self _ _)
    simp only [replaceList, List.map_cons, if_neg h1]
    have := ih (fun q hq => h q (List.mem_cons_of_mem _ hq))
    unfold replaceList at this
    rw [this]

theorem delList_eq_self [LinearOrder α] (k : α) (l : List (α × β))
    (h : ∀ p ∈ l, p.1 ≠ k) : delList k l = l := by
  unfold delList
  rw [List.filter_eq_self]
  intro a ha
  simpa using h a ha

theorem delList_append [LinearOrder α] (k : α) (A B : List (α × β)) :
    delList k (A ++ B) = delList k A ++ delList k B := by
  simp [delList, List.filter_append]

theorem delList_cons_self [LinearOrder α] (k : α) (v : β) (l : List (α × β)) :
    delList k ((k, v) :: l) = delList k l := by
  simp [delList]

theorem delList_cons_ne [LinearOrder α] {k a : α} (v : β) (l : List (α × β)) (h : a ≠ k) :
    delList k ((a, v) :: l) = (a, v) :: delList k l := by
  simp [delList, h]

theorem mem_delList [LinearOrder α] {k : α} {p : α × β} {l : List (α × β)} :
    p ∈ delList k l ↔ p ∈ l ∧ p.1 ≠ k := by
  simp [delList, List.mem_filter]

theorem filter_delList [LinearOrder α] (k : α) (Q : α × β → Bool) (l : List (α × β)) :
    (delList k l).filter Q = l.filter (fun a => Q a && decide (a.1 ≠ k)) := by
  unfold delList
  rw [List.filter_filter]

theorem delList_keys [LinearOrder α] (k : α) :
    ∀ l : List (α × β),
      (delList k l).map Prod.fst = (l.map Prod.fst).filter (fun a => decide (a ≠ k)) := by
  intro l
  induction l with
  | nil => rfl
  | cons p rest ih =>
    by_cases h : p.1 = k
    · simp [delList, List.filter_cons, h] at ih ⊢
      exact ih
    · simp [delList, List.filter_cons, h] at ih ⊢
      exact ih

theorem delList_sorted [LinearOrder α] {k : α} {l : List (α × β)}
    (h : List.Pairwise (· < ·) (l.map Prod.fst)) :
    List.Pairwise (· < ·) ((delList k l).map Prod.fst) := by
  rw [delList_keys]
  exact h.sublist (List.filter_sublist _)

theorem alookup_delList_self [LinearOrder α] (k : α) (l : List (α × β)) :
    alookup k (delList k l) = none := by
  apply alookup_eq_none
  rw [delList_keys]
  simp

theorem alookup_delList_ne [LinearOrder α] {k k2 : α} (h : k2 ≠ k) (l : List (α × β)) :
    alookup k2 (delList k l) = alookup k2 l := by
  induction l with
  | nil => rfl
  | cons p rest ih =>
    by_cases hp : p.1 = k
    · rw [show delList k (p :: rest) = delList k rest from by simp [delList, hp]]
      rw [ih]
      have : ¬ p.1 = k2 := by rw [hp]; exact fun he => h he.symm
      simp [alookup, this]
    · rw [show delList k (p :: rest) = p :: delList k rest from by simp [delList, hp]]
      by_cases hq : p.1 = k2 <;> simp [alookup, hq, ih]

theorem mem_insList [LinearOrder α] {k : α} {v : β} {p : α × β} :
    ∀ {l : List (α × β)}, p ∈ insList k v l → p = (k, v) ∨ p ∈ l := by
  intro l
  induction l with
  | nil => intro h; simpa [insList] using h
  | cons q rest ih =>
    intro h
    obtain ⟨a, av⟩ := q
    by_cases h1 : k < a
    · simp only [insList, if_pos h1] at h
      rcases List.mem_cons.mp h with h | h
      · exact Or.inl h
      · exact Or.inr h
    · by_cases h2 : a < k
      · simp only [insList, if_neg h1, if_pos h2] at h
        rcases List.mem_cons.mp h with h | h
        · exact Or.inr (h ▸ List.mem_cons_self _ _)
        · rcases ih h with h | h
          · exact Or.inl h
          · exact Or.inr (List.mem_cons_of_mem _ h)
      · have he : a = k := le_antisymm (not_lt.mp h1) (not_lt.mp h2)
        subst he
        simp only [insList, lt_irrefl, if_false] at h
        rcases List.mem_cons.mp h with h | h
        · exact Or.inl h
        · exact Or.inr (List.mem_cons_of_mem _ h)

theorem insList_keys_mem [LinearOrder α] (k : α) (v : β) {x : α} :
    ∀ {l : List (α × β)}, (x ∈ (insList k v l).map Prod.fst ↔ x = k ∨ x ∈ l.map Prod.fst) := by
  intro l
  induction l with
  | nil => simp [insList]
  | cons q rest ih =>
    obtain ⟨a, av⟩ := q
    by_cases h1 : k < a
    · simp [insList, h1]
      try tauto
    · by_cases h2 : a < k
      · simp only [insList, if_neg h1, if_pos h2, List.map_cons, List.mem_cons] at ih ⊢
        try tauto
      · have he : a = k := le_antisymm (not_lt.mp h1) (not_lt.mp h2)
        subst he
        simp [insList, lt_irrefl]
        try tauto

theorem insList_sorted [LinearOrder α] (k : α) (v : β) :
    ∀ {l : List (α × β)}, List.Pairwise (· < ·) (l.map Prod.fst) →
      List.Pairwise (· < ·) ((insList k v l).map Prod.fst) := by
  intro l
  induction l with
  | nil => intro _; simp [insList]
  | cons q rest ih =>
    intro h
    obtain ⟨a, av⟩ := q
    rw [List.map_cons, List.pairwise_cons] at h
    obtain ⟨ha, hrest⟩ := h
    by_cases h1 : k < a
    · rw [show insList k v ((a, av) :: rest) = (k, v) :: (a, av) :: rest from by
        simp [insList, h1]]
      simp only [List.map_cons, List.pairwise_cons, List.mem_cons]
      refine ⟨?_, ha, hrest⟩
      rintro b (rfl | hb)
      · exact h1
      · exact lt_trans h1 (ha b hb)
    · by_cases h2 : a < k
      · rw [show insList k v ((a, av) :: rest) = (a, av) :: insList k v rest from by
          simp [insList, h1, h2]]
        simp only [List.map_cons, List.pairwise_cons]
        refine ⟨?_, ih hrest⟩
        intro b hb
        rcases (insList_keys_mem k v).mp hb with rfl | hb
        · exact h2
        · exact ha b hb
      · have he : a = k := le_antisymm (not_lt.mp h1) (not_lt.mp h2)
        subst he
        rw [show insList a v ((a, av) :: rest) = (a, v) :: rest from by
          simp [insList, lt_irrefl]]
        simp only [List.map_cons, List.pairwise_cons]
        exact ⟨ha, hrest⟩

theorem alookup_insList_self [LinearOrder α] (k : α) (v : β) :
    ∀ (l : List (α × β)), alookup k (insList k v l) = some v := by
  intro l
  induction l with
  | nil => simp [insList, alookup]
  | cons q rest ih =>
    obtain ⟨a, av⟩ := q
    by_cases h1 : k < a
    · simp [insList, h1, alookup]
    · by_cases h2 : a < k
      · have : ¬ a = k := fun he => absurd (he ▸ h2) (lt_irrefl k)
        simp [insList, h1, h2, alookup, this, ih]
      · have he : a = k := le_antisymm (not_lt.mp h1) (not_lt.mp h2)
        subst he
        simp [insList, lt_irrefl, alookup]

theorem alookup_insList_ne [LinearOrder α] {k k2 : α} (v : β) (h : k2 ≠ k) :
    ∀ (l : List (α × β)), alookup k2 (insList k v l) = alookup k2 l := by
  have hne : ¬ k = k2 := fun he => h he.symm
  intro l
  induction l with
  | nil => simp [insList, alookup, hne]
  | cons q rest ih =>
    obtain ⟨a, av⟩ := q
    by_cases h1 : k < a
    · simp [insList, h1, alookup, hne]
    · by_cases h2 : a < k
      · by_cases hq : a = k2
        · subst hq
          simp [insList, h1, h2, alookup, ih]
        · simp [insList, h1, h2, alookup, hq, ih]
      · have he : a = k := le_antisymm (not_lt.mp h1) (not_lt.mp h2)
        subst he
        have hne2 : ¬ a = k2 := fun he => h he.symm
        simp [insList, lt_irrefl, alookup, hne2]

theorem replaceList_cons [LinearOrder α] (k : α) (v : β) (p : α × β) (l : List (α × β)) :
    replaceList k v (p :: l) = (if p.1 = k then (p.1, v) else p) :: replaceList k v l := rfl

theorem replaceList_keys [LinearOrder α] (k : α) (v : β) (l : List (α × β)) :
    (replaceList k v l).map Prod.fst = l.map Prod.fst := by
  induction l with
  | nil => rfl
  | cons p rest ih =>
    by_cases h : p.1 = k <;> simp [replaceList, h] at ih ⊢ <;> exact ih

theorem mem_replaceList [LinearOrder α] {k : α} {v : β} {p : α × β} :
    ∀ {l : List (α × β)}, p ∈ replaceList k v l →
      (p.1 = k ∧ p.2 = v ∧ p.1 ∈ l.map Prod.fst) ∨ (p ∈ l ∧ p.1 ≠ k) := by
  intro l
  induction l with
  | nil => intro h; simp [replaceList] at h
  | cons q rest ih =>
    intro h
    simp only [replaceList, List.map_cons] at h
    rcases List.mem_cons.mp h with h | h
    · by_cases hq : q.1 = k
      · rw [if_pos hq] at h
        subst h
        exact Or.inl ⟨hq, rfl, by simp [hq]⟩
      · rw [if_neg hq] at h
        subst h
        exact Or.inr ⟨List.mem_cons_self _ _, hq⟩
    · rcases ih h with ⟨h1, h2, h3⟩ | ⟨h1, h2⟩
      · exact Or.inl ⟨h1, h2, by simp [h3]⟩
      · exact Or.inr ⟨List.mem_cons_of_mem _ h1, h2⟩

theorem alookup_replaceList_self [LinearOrder α] (k : α) (v : β) (l : List (α × β)) :
    alookup k (replaceList k v l) = (alookup k l).map (fun _ => v) := by
  induction l with
  | nil => rfl
  | cons p rest ih =>
    unfold replaceList at ih ⊢
    by_cases h : p.1 = k <;> simp [alookup, h, ih]

theorem alookup_replaceList_ne [LinearOrder α] {k k2 : α} (v : β) (h : k2 ≠ k)
    (l : List (α × β)) : alookup k2 (replaceList k v l) = alookup k2 l := by
  induction l with
  | nil => rfl
  | cons p rest ih =>
    unfold replaceList at ih ⊢
    by_cases hp : p.1 = k
    · have hne : ¬ p.1 = k2 := by rw [hp]; exact fun he => h he.symm
      have hk : ¬ k = k2 := fun he => h he.symm
      simp [alookup, hp, hne, hk, ih]
    · by_cases hq : p.1 = k2 <;> simp [alookup, hp, hq, h, ih]

/-- If the search finds a node, the key occurs in the subtree. -/
theorem search_ctx_mem [LinearOrder α] (k : α) :
    ∀ (t : Tree α β) (ctx : List (Frame α β)) (p : Tree α β × List (Frame α β)),
      search_ctx t k ctx = some p → k ∈ (inorder t).map Prod.fst := by
  intro t
  induction t with
  | nil => intro ctx p h; simp [search_ctx] at h
  | node c l k' v r ihl ihr =>
    intro ctx p h
    by_cases he : k = k'
    · subst he; simp [inorder_node]
    · by_cases hlt : k < k'
      · simp only [search_ctx, if_neg he, if_pos hlt] at h
        have hm := ihl _ _ h
        simp only [inorder_node, List.map_append, List.map_cons, List.mem_append]
        exact Or.inl hm
      · simp only [search_ctx, if_neg he, if_neg hlt] at h
        have hm := ihr _ _ h
        simp only [inorder_node, List.map_append, List.map_cons, List.mem_append,
          List.mem_cons]
        exact Or.inr (Or.inr hm)

/-- A key absent from the tree is never found (no ordering assumption: the
search follows one comparison path and only stops on an equal key). -/
theorem search_node_none [LinearOrder α] (k : α) (t : Tree α β)
    (h : k ∉ (inorder t).map Prod.fst) : search_node t k = none := by
  rcases hs : search_node t k with _ | p
  · rfl
  · exact absurd (search_ctx_mem k t [] p hs) h

/-- On an ordered tree the search returns the associated value. -/
theorem search_ctx_value [LinearOrder α] (k : α) :
    ∀ (t : Tree α β) (ctx : List (Frame α β)), Ordered t →
      focusValue (search_ctx t k ctx) = alookup k (inorder t) := by
  intro t
  induction t with
  | nil => intro ctx _; rfl
  | node c l k' v r ihl ihr =>
    intro ctx ho
    obtain ⟨hol, hor, hlk, hrk⟩ := ordered_node ho
    by_cases he : k = k'
    · subst he
      have hln : alookup k (inorder l) = none := by
        refine alookup_eq_none _ _ ?_
        intro hm
        obtain ⟨q, hq, rfl⟩ := List.mem_map.mp hm
        exact lt_irrefl _ (hlk q hq)
      rw [show search_ctx (.node c l k v r) k ctx = some (.node c l k v r, ctx) from by
        simp [search_ctx]]
      rw [inorder_node, alookup_append, hln]
      simp [focusValue, alookup]
    · by_cases hlt : k < k'
      · rw [show search_ctx (.node c l k' v r) k ctx =
          search_ctx l k (⟨.left, c, k', v, r⟩ :: ctx) from by simp [search_ctx, he, hlt]]
        have hrn : alookup k ((k', v) :: inorder r) = none := by
          refine alookup_eq_none _ _ ?_
          intro hm
          simp only [List.map_cons, List.mem_cons] at hm
          rcases hm with rfl | hm
          · exact he rfl
          · obtain ⟨q, hq, rfl⟩ := List.mem_map.mp hm
            exact absurd (lt_trans hlt (hrk q hq)) (lt_irrefl _)
        rw [ihl _ hol, inorder_node, alookup_append]
        cases halo : alookup k (inorder l) <;> simp [halo, hrn]
      · have hgt : k' < k := lt_of_le_of_ne (le_of_not_lt hlt) (fun hee => he hee.symm)
        have hln : alookup k (inorder l) = none := by
          refine alookup_eq_none _ _ ?_
          intro hm
          obtain ⟨q, hq, rfl⟩ := List.mem_map.mp hm
          exact absurd (lt_trans (hlk q hq) hgt) (lt_irrefl _)
        rw [show search_ctx (.node c l k' v r) k ctx =
          search_ctx r k (⟨.right, c, k', v, l⟩ :: ctx) from by simp [search_ctx, he, hlt]]
        rw [ihr _ hor, inorder_node, alookup_append, hln]
        have hne : ¬ k' = k := fun hee => he hee.symm
        simp [alookup, hne]

/-- `search` agrees with association lookup on the in-order listing. -/
theorem search_alookup [LinearOrder α] (k : α) (t : Tree α β) (h : Ordered t) :
    search t k = alookup k (inorder t) := by
  rw [show search t k = focusValue (search_ctx t k []) from by
    unfold search search_node focusValue
    rcases search_ctx t k [] with _ | ⟨_ | _, _⟩ <;> rfl]
  exact search_ctx_value k t [] h

theorem replaceList_append [LinearOrder α] (k : α) (v : β) (A B : List (α × β)) :
    replaceList k v (A ++ B) = replaceList k v A ++ replaceList k v B := by
  simp [replaceList]

theorem alookup_mem_isSome [LinearOrder α] {k : α} :
    ∀ {l : List (α × β)}, k ∈ l.map Prod.fst → ∃ v, alookup k l = some v := by
  intro l
  induction l with
  | nil => intro h; simp at h
  | cons p rest ih =>
    intro h
    by_cases hp : p.1 = k
    · exact ⟨p.2, by simp [alookup, hp]⟩
    · simp only [List.map_cons, List.mem_cons] at h
      rcases h with rfl | h
      · exact absurd rfl hp
      · obtain ⟨v, hv⟩ := ih h
        exact ⟨v, by simp [alookup, hp, hv]⟩

/-- Replacing the value of a found node updates exactly that entry of the
in-order listing, leaving structure aside. -/
theorem search_ctx_replace [LinearOrder α] (k : α) (v : β) :
    ∀ (t : Tree α β) (ctx : List (Frame α β)), Ordered t →
      ∀ (focus : Tree α β) (ctx' : List (Frame α β)),
        search_ctx t k ctx = some (focus, ctx') →
        inorder (plug (withValue focus v) ctx') =
          ctxL ctx ++ replaceList k v (inorder t) ++ ctxR ctx := by
  intro t
  induction t with
  | nil => intro ctx _ focus ctx' h; simp [search_ctx] at h
  | node c l k' v' r ihl ihr =>
    intro ctx ho focus ctx' h
    obtain ⟨hol, hor, hlk, hrk⟩ := ordered_node ho
    by_cases he : k = k'
    · subst he
      rw [show search_ctx (.node c l k v' r) k ctx = some (.node c l k v' r, ctx) from by
        simp [search_ctx]] at h
      simp only [Option.some.injEq, Prod.mk.injEq] at h
      obtain ⟨h1, h2⟩ := h
      subst h1; subst h2
      rw [show withValue (.node c l k v' r : Tree α β) v = .node c l k v r from rfl,
        inorder_plug, inorder_node, inorder_node, replaceList_append]
      rw [replaceList_eq_self k v _ (fun p hp => ne_of_lt (hlk p hp))]
      rw [show replaceList k v ((k, v') :: inorder r) =
        (k, v) :: replaceList k v (inorder r) from by simp [replaceList]]
      rw [replaceList_eq_self k v _ (fun p hp => ne_of_gt (hrk p hp))]
    · by_cases hlt : k < k'
      · rw [show search_ctx (.node c l k' v' r) k ctx =
          search_ctx l k (⟨.left, c, k', v', r⟩ :: ctx) from by simp [search_ctx, he, hlt]] at h
        have hne : ¬ k' = k := fun hh => he hh.symm
        rw [ihl _ hol _ _ h, inorder_node, replaceList_append]
        rw [show replaceList k v ((k', v') :: inorder r) =
          (k', v') :: replaceList k v (inorder r) from by simp [replaceList, hne]]
        rw [replaceList_eq_self k v _ (fun p hp => ne_of_gt (lt_trans hlt (hrk p hp)))]
        simp [ctxL_cons, ctxR_cons]
      · have hgt : k' < k := lt_of_le_of_ne (le_of_not_lt hlt) (fun hee => he hee.symm)
        rw [show search_ctx (.node c l k' v' r) k ctx =
          search_ctx r k (⟨.right, c, k', v', l⟩ :: ctx) from by simp [search_ctx, he, hlt]] at h
        have hne : ¬ k' = k := fun hh => he hh.symm
        rw [ihr _ hor _ _ h, inorder_node, replaceList_append]
        rw [show replaceList k v ((k', v') :: inorder r) =
          (k', v') :: replaceList k v (inorder r) from by simp [replaceList, hne]]
        rw [replaceList_eq_self k v _ (fun p hp => ne_of_lt (lt_trans (hlk p hp) hgt))]
        simp [ctxL_cons, ctxR_cons]

theorem stripVals_fill (f : Frame α β) {t1 t2 : Tree α β} (h : stripVals t1 = stripVals t2) :
    stripVals (fill f t1) = stripVals (fill f t2) := by
  obtain ⟨d, c, k, v, sib⟩ := f
  cases d <;> simp [fill, stripVals, h]

theorem stripVals_plug : ∀ (ctx : List (Frame α β)) {t1 t2 : Tree α β},
    stripVals t1 = stripVals t2 → stripVals (plug t1 ctx) = stripVals (plug t2 ctx) := by
  intro ctx
  induction ctx with
  | nil => intro t1 t2 h; exact h
  | cons f rest ih => intro t1 t2 h; exact ih (stripVals_fill f h)

/-- Inserting a key that is already present only replaces the value: the
skeleton (shape, colors, keys) is untouched and no fix-up runs. -/
theorem insertGo_stripVals [LinearOrder α] (k : α) (v : β) :
    ∀ (t : Tree α β) (ctx : List (Frame α β)), Ordered t →
      k ∈ (inorder t).map Prod.fst →
      stripVals (insertGo t k v ctx) = stripVals (plug t ctx) := by
  intro t
  induction t with
  | nil => intro ctx _ hm; simp at hm
  | node c l k' v' r ihl ihr =>
    intro ctx ho hm
    obtain ⟨hol, hor, hlk, hrk⟩ := ordered_node ho
    by_cases h1 : k < k'
    · have hml : k ∈ (inorder l).map Prod.fst := by
        simp only [inorder_node, List.map_append, List.map_cons, List.mem_append,
          List.mem_cons] at hm
        rcases hm with hm | rfl | hm
        · exact hm
        · exact absurd h1 (lt_irrefl _)
        · obtain ⟨q, hq, rfl⟩ := List.mem_map.mp hm
          exact absurd (lt_trans h1 (hrk q hq)) (lt_irrefl _)
      rw [show insertGo (.node c l k' v' r) k v ctx =
        insertGo l k v (⟨.left, c, k', v', r⟩ :: ctx) from by simp [insertGo, h1]]
      exact ihl _ hol hml
    · by_cases h2 : k' < k
      · have hmr : k ∈ (inorder r).map Prod.fst := by
          simp only [inorder_node, List.map_append, List.map_cons, List.mem_append,
            List.mem_cons] at hm
          rcases hm with hm | rfl | hm
          · obtain ⟨q, hq, rfl⟩ := List.mem_map.mp hm
            exact absurd (lt_trans h2 (hlk q hq)) (lt_irrefl _)
          · exact absurd h2 (lt_irrefl _)
          · exact hm
        rw [show insertGo (.node c l k' v' r) k v ctx =
          insertGo r k v (⟨.right, c, k', v', l⟩ :: ctx) from by simp [insertGo, h1, h2]]
        exact ihr _ hor hmr
      · rw [show insertGo (.node c l k' v' r) k v ctx =
          plug (.node c l k' v r) ctx from by simp [insertGo, h1, h2]]
        exact stripVals_plug ctx rfl

/-- The deletion descent: the in-order contents lose exactly the entry with
key `k` (if present), and the returned boolean reports the key's presence. -/
theorem deleteGo_inorder [LinearOrder α] (k : α) :
    ∀ (t : Tree α β) (ctx : List (Frame α β)), Ordered t →
      inorder (deleteGo t k ctx).1 = ctxL ctx ++ delList k (inorder t) ++ ctxR ctx ∧
      ((deleteGo t k ctx).2 = true ↔ k ∈ (inorder t).map Prod.fst) := by
  intro t
  induction t with
  | nil =>
    intro ctx _
    constructor
    · simp [deleteGo, inorder_plug, delList]
    · simp [deleteGo]
  | node c l k' v' r ihl ihr =>
    intro ctx ho
    obtain ⟨hol, hor, hlk, hrk⟩ := ordered_node ho
    by_cases he : k = k'
    · subst he
      have hdel : delList k (inorder (.node c l k v' r)) = inorder l ++ inorder r := by
        rw [inorder_node, delList_append, delList_cons_self,
          delList_eq_self k _ (fun p hp => ne_of_lt (hlk p hp)),
          delList_eq_self k _ (fun p hp => ne_of_gt (hrk p hp))]
      cases l with
      | nil =>
        constructor
        · by_cases hc : c = .black
          · subst hc
            simp [deleteGo, delete_fixup_inorder, inorder_plug, hdel]
          · simp [deleteGo, hc, delete_fixup_inorder, inorder_plug, hdel]
        · by_cases hc : c = .black <;> simp [deleteGo, hc, inorder_node]
      | node lc ll lk lv lr =>
        cases r with
        | nil =>
          constructor
          · by_cases hc : c = .black
            · subst hc
              simp [deleteGo, delete_fixup_inorder, inorder_plug, hdel]
            · simp [deleteGo, hc, delete_fixup_inorder, inorder_plug, hdel]
          · by_cases hc : c = .black <;> simp [deleteGo, hc, inorder_node]
        | node rc rl rk rv rr =>
          obtain ⟨⟨yc, yk, yv, yr⟩, frs, hms⟩ :=
            minSplit_some (.node rc rl rk rv rr) (by simp)
          obtain ⟨hplug, hctxl⟩ := minSplit_plug _ _ _ _ _ _ hms
          have hinr : inorder (.node rc rl rk rv rr : Tree α β) =
              (yk, yv) :: (inorder yr ++ ctxR frs) := by
            rw [← hplug, inorder_plug, hctxl]
            simp [inorder_node]
          constructor
          · by_cases hyc : yc = .black
            · subst hyc
              simp [deleteGo, hms, delete_fixup_inorder, inorder_plug, hdel, hinr,
                ctxL_append, ctxR_append, ctxL_cons, ctxR_cons, hctxl, List.append_assoc]
            · simp [deleteGo, hms, hyc, delete_fixup_inorder, inorder_plug, hdel, hinr,
                ctxL_append, ctxR_append, ctxL_cons, ctxR_cons, hctxl, List.append_assoc]
          · by_cases hyc : yc = .black <;> simp [deleteGo, hms, hyc, inorder_node]
    · by_cases hlt : k < k'
      · obtain ⟨ih1, ih2⟩ := ihl (⟨.left, c, k', v', r⟩ :: ctx) hol
        have hstep : deleteGo (.node c l k' v' r) k ctx =
            deleteGo l k (⟨.left, c, k', v', r⟩ :: ctx) := by
          simp [deleteGo, he, hlt]
        have hd : delList k (inorder (.node c l k' v' r)) =
            delList k (inorder l) ++ (k', v') :: inorder r := by
          rw [inorder_node, delList_append, delList_cons_ne v' _ (fun hh => he hh.symm),
            delList_eq_self k _ (fun p hp => ne_of_gt (lt_trans hlt (hrk p hp)))]
        constructor
        · rw [hstep, ih1, hd]
          simp [ctxL_cons, ctxR_cons, List.append_assoc]
        · rw [hstep, ih2]
          constructor
          · intro hm
            simp only [inorder_node, List.map_append, List.map_cons, List.mem_append]
            exact Or.inl hm
          · intro hm
            simp only [inorder_node, List.map_append, List.map_cons, List.mem_append,
              List.mem_cons] at hm
            rcases hm with hm | rfl | hm
            · exact hm
            · exact absurd hlt (lt_irrefl _)
            · obtain ⟨q, hq, rfl⟩ := List.mem_map.mp hm
              exact absurd (lt_trans hlt (hrk q hq)) (lt_irrefl _)
      · have hgt : k' < k := lt_of_le_of_ne (le_of_not_lt hlt) (fun hee => he hee.symm)
        obtain ⟨ih1, ih2⟩ := ihr (⟨.right, c, k', v', l⟩ :: ctx) hor
        have hstep : deleteGo (.node c l k' v' r) k ctx =
            deleteGo r k (⟨.right, c, k', v', l⟩ :: ctx) := by
          simp [deleteGo, he, hlt]
        have hd : delList k (inorder (.node c l k' v' r)) =
            inorder l ++ (k', v') :: delList k (inorder r) := by
          rw [inorder_node, delList_append, delList_cons_ne v' _ (fun hh => he hh.symm),
            delList_eq_self k _ (fun p hp => ne_of_lt (lt_trans (hlk p hp) hgt))]
        constructor
        · rw [hstep, ih1, hd]
          simp [ctxL_cons, ctxR_cons, List.append_assoc]
        · rw [hstep, ih2]
          constructor
          · intro hm
            simp only [inorder_node, List.map_append, List.map_cons, List.mem_append,
              List.mem_cons]
            exact Or.inr (Or.inr hm)
          · intro hm
            simp only [inorder_node, List.map_append, List.map_cons, List.mem_append,
              List.mem_cons] at hm
            rcases hm with hm | rfl | hm
            · obtain ⟨q, hq, rfl⟩ := List.mem_map.mp hm
              exact absurd (lt_trans (hlk q hq) hgt) (lt_irrefl _)
            · exact absurd hgt (lt_irrefl _)
            · exact hm

/-- `delete` on an ordered tree removes exactly the entry with the given key
from the in-order listing. -/
theorem delete_inorder [LinearOrder α] (k : α) (t : Tree α β) (h : Ordered t) :
    inorder (delete t k).1 = delList k (inorder t) := by
  have := (deleteGo_inorder k t [] h).1
  simpa [delete] using this

/-- `delete`'s boolean result reports whether the key was present. -/
theorem delete_found [LinearOrder α] (k : α) (t : Tree α β) (h : Ordered t) :
    ((delete t k).2 = true ↔ k ∈ (inorder t).map Prod.fst) :=
  (deleteGo_inorder k t [] h).2

/-- `insert` preserves the ordering invariant. -/
theorem insert_ordered [LinearOrder α] {t : Tree α β} (k : α) (v : β) (h : Ordered t) :
    Ordered (insert t k v) := by
  unfold Ordered keys
  rw [insert_inorder k v h]
  exact insList_sorted k v h

/-- `delete` preserves the ordering invariant. -/
theorem delete_ordered [LinearOrder α] (k : α) {t : Tree α β} (h : Ordered t) :
    Ordered (delete t k).1 := by
  unfold Ordered keys
  rw [delete_inorder k t h]
  exact delList_sorted h

theorem dropWhile_append_all {p : α × β → Bool} :
    ∀ {A B : List (α × β)}, (∀ a ∈ A, p a = true) →
      (A ++ B).dropWhile p = B.dropWhile p := by
  intro A B
  induction A with
  | nil => intro _; rfl
  | cons q rest ih =>
    intro h
    rw [List.cons_append, List.dropWhile_cons_of_pos (h q (List.mem_cons_self _ _))]
    exact ih (fun a ha => h a (List.mem_cons_of_mem _ ha))

theorem minPos_seq : ∀ (t : Tree α β) (ctx : List (Frame α β)), t ≠ .nil →
    seqFrom (minPos t ctx) = inorder t ++ ctxR ctx := by
  intro t
  induction t with
  | nil => intro ctx h; exact absurd rfl h
  | node c l k v r ihl ihr =>
    intro ctx _
    cases l with
    | nil => simp [minPos, seqFrom, inorderMid, inorder_node]
    | node lc ll lk lv lr =>
      rw [show minPos (.node c (.node lc ll lk lv lr) k v r) ctx =
        minPos (.node lc ll lk lv lr) (⟨.left, c, k, v, r⟩ :: ctx) from rfl]
      rw [ihl _ (by simp)]
      simp [ctxR_cons, inorder_node, List.append_assoc]

theorem minPos_focus : ∀ (t : Tree α β) (ctx : List (Frame α β)), t ≠ .nil →
    (minPos t ctx).1 ≠ .nil := by
  intro t
  induction t with
  | nil => intro ctx h; exact absurd rfl h
  | node c l k v r ihl ihr =>
    intro ctx _
    cases l with
    | nil => simp [minPos]
    | node lc ll lk lv lr =>
      rw [show minPos (.node c (.node lc ll lk lv lr) k v r) ctx =
        minPos (.node lc ll lk lv lr) (⟨.left, c, k, v, r⟩ :: ctx) from rfl]
      exact ihl _ (by simp)

theorem upFromRight_seq : ∀ (ctx : List (Frame α β)) (x : Tree α β),
    seqFromOpt (upFromRight x ctx) = ctxR ctx := by
  intro ctx
  induction ctx with
  | nil => intro x; rfl
  | cons f rest ih =>
    intro x
    obtain ⟨d, c, k, v, sib⟩ := f
    cases d with
    | right => simp [upFromRight, ih, ctxR_cons]
    | left => simp [upFromRight, seqFromOpt, seqFrom, inorderMid, ctxR_cons]

theorem upFromRight_focus : ∀ (ctx : List (Frame α β)) (x : Tree α β),
    ∀ q ∈ upFromRight x ctx, q.1 ≠ (.nil : Tree α β) := by
  intro ctx
  induction ctx with
  | nil => intro x q hq; simp [upFromRight] at hq
  | cons f rest ih =>
    intro x q hq
    obtain ⟨d, c, k, v, sib⟩ := f
    cases d with
    | right => exact ih _ q hq
    | left =>
      simp only [upFromRight, Option.mem_def, Option.some.injEq] at hq
      subst hq
      simp

/-- Walking to the successor drops exactly the head of the remaining in-order
sequence. -/
theorem successor_seq (c : Color) (l r : Tree α β) (k : α) (v : β)
    (ctx : List (Frame α β)) :
    seqFromOpt (successor (.node c l k v r, ctx)) = inorder r ++ ctxR ctx := by
  cases r with
  | nil => simp [successor, upFromRight_seq]
  | node rc rl rk rv rr =>
    rw [show successor (.node c l k v (.node rc rl rk rv rr), ctx) =
      some (minPos (.node rc rl rk rv rr) (⟨.right, c, k, v, l⟩ :: ctx)) from rfl]
    rw [show seqFromOpt (some (minPos (.node rc rl rk rv rr)
      (⟨.right, c, k, v, l⟩ :: ctx))) = seqFrom (minPos (.node rc rl rk rv rr)
      (⟨.right, c, k, v, l⟩ :: ctx)) from rfl]
    rw [minPos_seq _ _ (by simp)]
    simp [ctxR_cons]

theorem successor_focus (c : Color) (l r : Tree α β) (k : α) (v : β)
    (ctx : List (Frame α β)) :
    ∀ q ∈ successor (.node c l k v r, ctx), q.1 ≠ (.nil : Tree α β) := by
  cases r with
  | nil =>
    intro q hq
    exact upFromRight_focus _ _ q hq
  | node rc rl rk rv rr =>
    intro q hq
    simp only [successor, Option.mem_def, Option.some.injEq] at hq
    subst hq
    exact minPos_focus _ _ (by simp)

/-- The lower-bound descent: the answer's remaining sequence is the `≥ k`
suffix of the in-order listing. -/
theorem lowerBoundGo_spec [LinearOrder α] (k : α) :
    ∀ (t : Tree α β) (ctx : List (Frame α β))
      (lb : Option (Tree α β × List (Frame α β))), Ordered t →
      seqFromOpt lb = (ctxR ctx).dropWhile (fun q => decide (q.1 < k)) →
      (∀ q ∈ lb, q.1 ≠ (.nil : Tree α β)) →
      seqFromOpt (lowerBoundGo t k ctx lb) =
        (inorder t ++ ctxR ctx).dropWhile (fun q => decide (q.1 < k)) ∧
      (∀ q ∈ lowerBoundGo t k ctx lb, q.1 ≠ (.nil : Tree α β)) := by
  intro t
  induction t with
  | nil =>
    intro ctx lb _ hlb hg
    exact ⟨by simpa [lowerBoundGo] using hlb, by simpa [lowerBoundGo] using hg⟩
  | node c l k' v r ihl ihr =>
    intro ctx lb ho hlb hg
    obtain ⟨hol, hor, hlk, hrk⟩ := ordered_node ho
    by_cases hge : k' ≥ k
    · rw [show lowerBoundGo (.node c l k' v r) k ctx lb =
        lowerBoundGo l k (⟨.left, c, k', v, r⟩ :: ctx)
          (some (.node c l k' v r, ctx)) from by simp [lowerBoundGo, hge]]
      have hlb' : seqFromOpt (some ((.node c l k' v r : Tree α β), ctx)) =
          (ctxR (⟨.left, c, k', v, r⟩ :: ctx)).dropWhile (fun q => decide (q.1 < k)) := by
        rw [show ctxR ((⟨.left, c, k', v, r⟩ : Frame α β) :: ctx) =
          (k', v) :: (inorder r ++ ctxR ctx) from rfl]
        rw [List.dropWhile_cons_of_neg (by simpa using not_lt_of_ge hge)]
        simp [seqFromOpt, seqFrom, inorderMid]
      obtain ⟨hh1, hh2⟩ := ihl _ _ hol hlb' (by
        intro q hq
        rw [Option.mem_def, Option.some.injEq] at hq
        subst hq
        simp)
      refine ⟨?_, hh2⟩
      rw [hh1]
      simp [ctxR_cons, inorder_node, List.append_assoc]
    · rw [show lowerBoundGo (.node c l k' v r) k ctx lb =
        lowerBoundGo r k (⟨.right, c, k', v, l⟩ :: ctx) lb from by simp [lowerBoundGo, hge]]
      have hgt : k' < k := lt_of_not_ge hge
      obtain ⟨hh1, hh2⟩ := ihr (⟨.right, c, k', v, l⟩ :: ctx) lb hor
        (by rwa [show ctxR ((⟨.right, c, k', v, l⟩ : Frame α β) :: ctx) = ctxR ctx from rfl])
        hg
      refine ⟨?_, hh2⟩
      rw [hh1]
      rw [show ctxR ((⟨.right, c, k', v, l⟩ : Frame α β) :: ctx) = ctxR ctx from rfl]
      rw [inorder_node]
      rw [show (inorder l ++ (k', v) :: inorder r) ++ ctxR ctx =
        (inorder l ++ [(k', v)]) ++ (inorder r ++ ctxR ctx) from by simp]
      have hall : ∀ a ∈ (inorder l ++ [(k', v)]),
          (fun (q : α × β) => decide (q.1 < k)) a = true := by
        intro a ha
        rcases List.mem_append.mp ha with ha | ha
        · simpa using lt_trans (hlk a ha) hgt
        · rcases List.mem_singleton.mp ha with rfl
          simpa using hgt
      rw [dropWhile_append_all hall]

/-- `lower_bound_node` anchors the scan at the first entry with key ≥ `k`. -/
theorem lower_bound_spec [LinearOrder α] (k : α) (t : Tree α β) (h : Ordered t) :
    seqFromOpt (lower_bound_node t k) =
      (inorder t).dropWhile (fun q => decide (q.1 < k)) ∧
    (∀ q ∈ lower_bound_node t k, q.1 ≠ (.nil : Tree α β)) := by
  have := lowerBoundGo_spec k t [] none h (by simp [seqFromOpt]) (by simp)
  simpa [lower_bound_node] using this

theorem takeWhile_eq_filter_sorted [LinearOrder α] {Q : α → Bool} {a : α}
    (hdc : ∀ x y : α, ¬ x < a → x ≤ y → Q y = true → Q x = true) :
    ∀ {l : List (α × β)}, List.Pairwise (· < ·) (l.map Prod.fst) →
      (∀ p ∈ l, ¬ p.1 < a) →
      l.takeWhile (fun p => Q p.1) = l.filter (fun p => Q p.1) := by
  intro l
  induction l with
  | nil => intro _ _; rfl
  | cons x rest ih =>
    intro hs hge
    rw [List.map_cons] at hs
    obtain ⟨hx, hrest⟩ := List.pairwise_cons.mp hs
    by_cases hq : Q x.1 = true
    · rw [List.takeWhile_cons_of_pos (by simpa using hq),
        List.filter_cons_of_pos (by simpa using hq)]
      rw [ih hrest (fun p hp => hge p (List.mem_cons_of_mem _ hp))]
    · rw [List.takeWhile_cons_of_neg (by simpa using hq),
        List.filter_cons_of_neg (by simpa using hq)]
      symm
      rw [List.filter_eq_nil_iff]
      intro p hp
      intro hqp
      exact hq (hdc x.1 p.1 (hge x (List.mem_cons_self _ _))
        (le_of_lt (hx p.1 (List.mem_map_of_mem _ hp))) (by simpa using hqp))

/-- On a key-sorted association list, dropping everything below the anchor `a`
and then taking while `Q` holds gives exactly the `Q`-filtered list — provided
every `Q`-satisfying entry is at or above the anchor and `Q` is downward
closed between the anchor and any point where it holds. -/
theorem dropWhile_takeWhile_filter [LinearOrder α] {Q : α → Bool} {a : α}
    (hdc : ∀ x y : α, ¬ x < a → x ≤ y → Q y = true → Q x = true) :
    ∀ {l : List (α × β)}, List.Pairwise (· < ·) (l.map Prod.fst) →
      (∀ p ∈ l, Q p.1 = true → ¬ p.1 < a) →
      ((l.dropWhile (fun p => decide (p.1 < a))).takeWhile (fun p => Q p.1))
        = l.filter (fun p => Q p.1) := by
  intro l
  induction l with
  | nil => intro _ _; rfl
  | cons x rest ih =>
    intro hs hQa
    have hs' := hs
    rw [List.map_cons] at hs'
    obtain ⟨hx, hrest⟩ := List.pairwise_cons.mp hs'

    by_cases hlt : x.1 < a
    · have hqx : ¬ Q x.1 = true := fun hq => hQa x (List.mem_cons_self _ _) hq hlt
      rw [List.dropWhile_cons_of_pos (by simpa using hlt),
        List.filter_cons_of_neg (by simpa using hqx)]
      exact ih hrest (fun p hp => hQa p (List.mem_cons_of_mem _ hp))
    · rw [List.dropWhile_cons_of_neg (by simpa using hlt)]
      have hge : ∀ p ∈ (x :: rest : List (α × β)), ¬ p.1 < a := by
        intro p hp
        rcases List.mem_cons.mp hp with rfl | hp
        · exact hlt
        · intro hc
          exact absurd (lt_trans (hx p.1 (List.mem_map_of_mem _ hp)) hc) hlt
      exact takeWhile_eq_filter_sorted hdc hs hge

end RBTree

/-! ## Theorems: the catalog scan -/

/-- The successor walk with predicate `p`, with enough fuel and a non-`nil`
focus everywhere, lists the values of the longest `p`-satisfying prefix of the
remaining in-order sequence. -/
theorem scanLoop_spec (p : TitleKey → Bool) :
    ∀ (fuel : Nat) (pos : Option (Tree TitleKey Book × List (Frame TitleKey Book))),
      (∀ q ∈ pos, q.1 ≠ (.nil : Tree TitleKey Book)) →
      (RBTree.seqFromOpt pos).length ≤ fuel →
      LibraryCatalog.scanLoop p fuel pos =
        ((RBTree.seqFromOpt pos).takeWhile (fun kv => p kv.1)).map Prod.snd := by
  intro fuel
  induction fuel with
  | zero =>
    intro pos _ hlen
    rw [List.eq_nil_of_length_eq_zero (Nat.le_zero.mp hlen)]
    cases pos <;> rfl
  | succ fuel ih =>
    intro pos hg hlen
    match pos with
    | none => rfl
    | some (t, ctx) =>
      match t with
      | .nil => exact absurd rfl (hg (.nil, ctx) rfl)
      | .node c l k v r =>
        have hseq : RBTree.seqFromOpt (some ((.node c l k v r : Tree TitleKey Book), ctx)) =
            (k, v) :: (RBTree.inorder r ++ RBTree.ctxR ctx) := rfl
        by_cases hp : p k = true
        · rw [show LibraryCatalog.scanLoop p (fuel + 1) (some (.node c l k v r, ctx)) =
            v :: LibraryCatalog.scanLoop p fuel (RBTree.successor (.node c l k v r, ctx))
            from by simp [LibraryCatalog.scanLoop, hp]]
          rw [ih _ (RBTree.successor_focus c l r k v ctx) (by
            rw [RBTree.successor_seq]
            have := hlen
            rw [hseq] at this
            simpa using Nat.le_of_succ_le_succ this)]
          rw [hseq, List.takeWhile_cons_of_pos (by simpa using hp),
            RBTree.successor_seq, List.map_cons]
        · rw [show LibraryCatalog.scanLoop p (fuel + 1) (some (.node c l k v r, ctx)) = []
            from by simp [LibraryCatalog.scanLoop, hp]]
          rw [hseq, List.takeWhile_cons_of_neg (by simpa using hp)]
          rfl

/-- Both title searches are this walk: lower-bound anchor at `a`, fuel
`size + 1`, predicate `p` — on an ordered tree the result is the values of the
`p`-prefix of the `≥ a` suffix. -/
theorem scan_walk (t : Tree TitleKey Book) (ho : RBTree.Ordered t) (a : TitleKey)
    (p : TitleKey → Bool) :
    LibraryCatalog.scanLoop p (RBTree.size t + 1) (RBTree.lower_bound_node t a) =
      (((RBTree.inorder t).dropWhile (fun q => decide (q.1 < a))).takeWhile
        (fun kv => p kv.1)).map Prod.snd := by
  obtain ⟨hseq, hfoc⟩ := RBTree.lower_bound_spec a t ho
  rw [scanLoop_spec p _ _ hfoc (by
    rw [hseq]
    exact le_trans ((List.dropWhile_sublist _).length_le) (Nat.le_succ _)), hseq]

/-! ## Theorems: title searches under well-formedness -/

theorem title_key_inj_id {b1 b2 : Book} (h : title_key b1 = title_key b2) :
    b1.book_id = b2.book_id :=
  congrArg Prod.snd (toLex_inj.mp h)

theorem map_snd_filter_snd {γ δ : Type} (P : δ → Bool) :
    ∀ (l : List (γ × δ)),
      (l.filter (fun q => P q.2)).map Prod.snd = (l.map Prod.snd).filter P := by
  intro l
  induction l with
  | nil => rfl
  | cons x rest ih =>
    by_cases hp : P x.2 = true
    · rw [List.filter_cons_of_pos (by simpa using hp), List.map_cons, List.map_cons,
        List.filter_cons_of_pos (by simpa using hp), ih]
    · rw [List.filter_cons_of_neg (by simpa using hp), List.map_cons,
        List.filter_cons_of_neg (by simpa using hp), ih]

/-- Each record of the title index is also listed by the id index. -/
theorem wf_title_mem_id {cat : LibraryCatalog} (hw : WF cat) {kv : TitleKey × Book}
    (h : kv ∈ RBTree.inorder cat.by_title) :
    kv.2 ∈ LibraryCatalog.list_all_by_id cat :=
  List.mem_map_of_mem Prod.snd (RBTree.alookup_mem _ _ _ (hw.t2i kv h))

/-- Between two lists that both extend `p` in lexicographic order, a list is
itself an extension of `p`: if `p` is a prefix of `y`, `p ≤ x`, and `x ≤ y`,
then `p` is a prefix of `x`. -/
theorem isPrefixOf_of_between {χ : Type} [LinearOrder χ] [BEq χ] [LawfulBEq χ] :
    ∀ (p x y : List χ), p.isPrefixOf y = true → ¬ x < p → x ≤ y →
      p.isPrefixOf x = true := by
  intro p
  induction p with
  | nil => intro x y _ _ _; cases x <;> rfl
  | cons a p2 ih =>
    intro x y hpre hxp hxy
    match x with
    | [] => exact absurd (List.nil_lt_cons a p2) hxp
    | b :: x2 =>
      match y with
      | [] => simp [List.isPrefixOf] at hpre
      | c :: y2 =>
        rw [List.isPrefixOf, Bool.and_eq_true, beq_iff_eq] at hpre
        obtain ⟨rfl, hpre2⟩ := hpre
        rcases lt_trichotomy a b with hab | rfl | hba
        · exact absurd (List.Lex.rel hab) (not_lt.mpr hxy)
        · have hx2p2 : ¬ x2 < p2 := fun h => hxp (List.Lex.cons h)
          have hx2y2 : x2 ≤ y2 := by
            rcases lt_or_eq_of_le hxy with h | h
            · exact le_of_lt (List.Lex.cons_iff.mp h)
            · exact le_of_eq (List.cons.inj h).2
          rw [List.isPrefixOf, Bool.and_eq_true, beq_iff_eq]
          exact ⟨rfl, ih x2 y2 hpre2 hx2p2 hx2y2⟩
        · exact absurd (List.Lex.rel hba) hxp

/-- The exact-title predicate is downward closed above its anchor. -/
theorem exact_hdc (tk : List Char) :
    ∀ x y : TitleKey, ¬ x < toLex (tk, -sys_maxsize) → x ≤ y →
      decide ((ofLex y).1 = tk) = true → decide ((ofLex x).1 = tk) = true := by
  intro x y hxa hxy hy
  rw [decide_eq_true_eq] at hy ⊢
  rcases (Prod.Lex.le_iff (ofLex x) (ofLex y)).mp hxy with h | h
  · exact absurd ((Prod.Lex.lt_iff (ofLex x) (tk, -sys_maxsize)).mpr
      (Or.inl (hy ▸ h))) hxa
  · exact hy ▸ h.1

/-- The title-prefix predicate is downward closed above its anchor. -/
theorem prefix_hdc (pq : List Char) :
    ∀ x y : TitleKey, ¬ x < toLex (pq, -sys_maxsize) → x ≤ y →
      str_startswith (ofLex y).1 pq = true → str_startswith (ofLex x).1 pq = true := by
  intro x y hxa hxy hy
  have hx1 : ¬ (ofLex x).1 < pq := fun h =>
    hxa ((Prod.Lex.lt_iff (ofLex x) (pq, -sys_maxsize)).mpr (Or.inl h))
  have hxy1 : (ofLex x).1 ≤ (ofLex y).1 := by
    rcases (Prod.Lex.le_iff (ofLex x) (ofLex y)).mp hxy with h | h
    · exact le_of_lt h
    · exact le_of_eq h.1
  exact isPrefixOf_of_between pq (ofLex x).1 (ofLex y).1 hy hx1 hxy1

/-- On a well-formed catalog whose ids do not lie below `-sys.maxsize`, the
exact-title search returns exactly the records whose folded title equals the
folded query, in title-index order. -/
theorem search_exact_eq (cat : LibraryCatalog) (hw : WF cat) (title : String)
    (hb : ∀ b ∈ LibraryCatalog.list_all_by_id cat, -sys_maxsize ≤ b.book_id) :
    LibraryCatalog.search_by_title_exact cat title =
      (LibraryCatalog.list_all_by_title cat).filter
        (fun b => decide (str_lower b.title = str_lower title)) := by
  rw [show LibraryCatalog.search_by_title_exact cat title =
    LibraryCatalog.scanLoop (fun k => decide ((ofLex k).1 = (str_lower title).data))
      (RBTree.size cat.by_title + 1)
      (RBTree.lower_bound_node cat.by_title
        (toLex ((str_lower title).data, -sys_maxsize))) from rfl]
  rw [scan_walk cat.by_title hw.ordTitle]
  rw [RBTree.dropWhile_takeWhile_filter (exact_hdc (str_lower title).data) hw.ordTitle (by
    intro q hq hQ hlt
    rw [decide_eq_true_eq] at hQ
    have hk := hw.tKey q hq
    have hid : -sys_maxsize ≤ q.2.book_id := hb q.2 (wf_title_mem_id hw hq)
    rcases (Prod.Lex.lt_iff (ofLex q.1) ((str_lower title).data, -sys_maxsize)).mp
      (by simpa using hlt) with h | h
    · exact absurd hQ (ne_of_lt h)
    · rw [hk] at h
      exact absurd h.2 (not_lt.mpr (by simpa [title_key] using hid)))]
  have hcong : ∀ q ∈ RBTree.inorder cat.by_title,
      decide ((ofLex q.1).1 = (str_lower title).data) =
        (fun b : Book => decide (str_lower b.title = str_lower title)) q.2 := by
    intro q hq
    rw [hw.tKey q hq]
    rw [show (ofLex (title_key q.2)).1 = (str_lower q.2.title).data from rfl]
    exact decide_eq_decide.mpr String.ext_iff.symm
  rw [List.filter_congr hcong,
    show LibraryCatalog.list_all_by_title cat =
      (RBTree.inorder cat.by_title).map Prod.snd from rfl]
  exact map_snd_filter_snd (fun b : Book => decide (str_lower b.title = str_lower title))
    (RBTree.inorder cat.by_title)

/-- No list is lexicographically below one of its own prefixes. -/
theorem not_lt_of_isPrefixOf {χ : Type} [LinearOrder χ] [BEq χ] [LawfulBEq χ] :
    ∀ (p s : List χ), p.isPrefixOf s = true → ¬ s < p := by
  intro p
  induction p with
  | nil => intro s _ h; exact List.Lex.not_nil_right _ _ h
  | cons a p2 ih =>
    intro s hpre h
    match s with
    | [] => simp [List.isPrefixOf] at hpre
    | b :: s2 =>
      rw [List.isPrefixOf, Bool.and_eq_true, beq_iff_eq] at hpre
      obtain ⟨rfl, hpre2⟩ := hpre
      cases h with
      | cons h2 => exact ih s2 hpre2 h2
      | rel hr => exact absurd hr (lt_irrefl a)

/-- On a well-formed catalog whose ids do not lie below `-sys.maxsize`, the
title-prefix search returns exactly the records whose folded title starts with
the folded query, in title-index order. -/
theorem search_prefix_eq (cat : LibraryCatalog) (hw : WF cat) (pre : String)
    (hb : ∀ b ∈ LibraryCatalog.list_all_by_id cat, -sys_maxsize ≤ b.book_id) :
    LibraryCatalog.search_by_title_prefix cat pre =
      (LibraryCatalog.list_all_by_title cat).filter
        (fun b => str_startswith (str_lower b.title).data (str_lower pre).data) := by
  rw [show LibraryCatalog.search_by_title_prefix cat pre =
    LibraryCatalog.scanLoop (fun k => str_startswith (ofLex k).1 (str_lower pre).data)
      (RBTree.size cat.by_title + 1)
      (RBTree.lower_bound_node cat.by_title
        (toLex ((str_lower pre).data, -sys_maxsize))) from rfl]
  rw [scan_walk cat.by_title hw.ordTitle]
  rw [RBTree.dropWhile_takeWhile_filter (prefix_hdc (str_lower pre).data) hw.ordTitle (by
    intro q hq hQ hlt
    have hk := hw.tKey q hq
    have hid : -sys_maxsize ≤ q.2.book_id := hb q.2 (wf_title_mem_id hw hq)
    rcases (Prod.Lex.lt_iff (ofLex q.1) ((str_lower pre).data, -sys_maxsize)).mp
      (by simpa using hlt) with h | h
    · exact not_lt_of_isPrefixOf _ _ hQ h
    · rw [hk] at h
      exact absurd h.2 (not_lt.mpr (by simpa [title_key] using hid)))]
  have hcong : ∀ q ∈ RBTree.inorder cat.by_title,
      str_startswith (ofLex q.1).1 (str_lower pre).data =
        (fun b : Book => str_startswith (str_lower b.title).data (str_lower pre).data)
          q.2 := by
    intro q hq
    rw [hw.tKey q hq]
    rfl
  rw [List.filter_congr hcong,
    show LibraryCatalog.list_all_by_title cat =
      (RBTree.inorder cat.by_title).map Prod.snd from rfl]
  exact map_snd_filter_snd
    (fun b : Book => str_startswith (str_lower b.title).data (str_lower pre).data)
    (RBTree.inorder cat.by_title)

/-! ## Theorems: well-formedness of reachable catalogs -/

/-- On a list with strictly sorted keys, membership determines the lookup. -/
theorem mem_alookup_sorted {α β : Type} [LinearOrder α] :
    ∀ {l : List (α × β)}, List.Pairwise (· < ·) (l.map Prod.fst) →
      ∀ {k : α} {v : β}, (k, v) ∈ l → RBTree.alookup k l = some v := by
  intro l
  induction l with
  | nil => intro _ k v h; simp at h
  | cons p rest ih =>
    intro hs k v h
    rw [List.map_cons, List.pairwise_cons] at hs
    obtain ⟨hp, hrest⟩ := hs
    rcases List.mem_cons.mp h with h | h
    · rw [← h]
      simp [RBTree.alookup]
    · by_cases hpk : p.1 = k
      · exact absurd (hpk ▸ hp k (List.mem_map_of_mem Prod.fst h)) (lt_irrefl k)
      · simp [RBTree.alookup, hpk, ih hrest h]

/-- Folding `delete` over a key list removes exactly the entries whose key is
listed, keeping order. -/
theorem foldl_delete_spec :
    ∀ (ks : List TitleKey) (t : Tree TitleKey Book), RBTree.Ordered t →
      RBTree.inorder (ks.foldl (fun acc k => (RBTree.delete acc k).1) t) =
        (RBTree.inorder t).filter (fun kv => decide (kv.1 ∉ ks)) ∧
      RBTree.Ordered (ks.foldl (fun acc k => (RBTree.delete acc k).1) t) := by
  intro ks
  induction ks with
  | nil =>
    intro t ho
    refine ⟨?_, ho⟩
    rw [List.foldl_nil]
    symm
    rw [List.filter_eq_self]
    intro a _
    simp
  | cons k ks ih =>
    intro t ho
    rw [List.foldl_cons]
    obtain ⟨h1, h2⟩ := ih (RBTree.delete t k).1 (RBTree.delete_ordered k ho)
    refine ⟨?_, h2⟩
    rw [h1, RBTree.delete_inorder k t ho, RBTree.filter_delList]
    apply List.filter_congr
    intro p _
    by_cases hk : p.1 = k <;> by_cases hks : p.1 ∈ ks <;> simp [hk, hks]

/-- `_remove_title_nodes_for_id` drops exactly the entries carrying the id. -/
theorem remove_title_inorder (t : Tree TitleKey Book) (ho : RBTree.Ordered t) (i : Int) :
    RBTree.inorder (LibraryCatalog.remove_title_nodes_for_id t i) =
      (RBTree.inorder t).filter (fun kv => decide ((ofLex kv.1).2 ≠ i)) ∧
    RBTree.Ordered (LibraryCatalog.remove_title_nodes_for_id t i) := by
  rw [show LibraryCatalog.remove_title_nodes_for_id t i =
    ((((RBTree.inorder t).map Prod.fst).filter (fun k => decide ((ofLex k).2 = i))).foldl
      (fun acc k => (RBTree.delete acc k).1) t) from rfl]
  obtain ⟨h1, h2⟩ := foldl_delete_spec
    ((((RBTree.inorder t).map Prod.fst).filter (fun k => decide ((ofLex k).2 = i)))) t ho
  refine ⟨?_, h2⟩
  rw [h1]
  apply List.filter_congr
  intro q hq
  by_cases hi : (ofLex q.1).2 = i
  · have hmem : q.1 ∈ ((RBTree.inorder t).map Prod.fst).filter
        (fun k => decide ((ofLex k).2 = i)) :=
      List.mem_filter.mpr ⟨List.mem_map_of_mem _ hq, by simpa using hi⟩
    simp [hmem, hi]
  · have hmem : q.1 ∉ ((RBTree.inorder t).map Prod.fst).filter
        (fun k => decide ((ofLex k).2 = i)) :=
      fun hm => hi (by simpa using (List.mem_filter.mp hm).2)
    simp [hmem, hi]

/-- The shape of `add_book` when the id is new. -/
theorem add_book_insert_eq (cat : LibraryCatalog) (b : Book)
    (hs : RBTree.search_node cat.by_id b.book_id = none) :
    LibraryCatalog.add_book cat b =
      (⟨RBTree.insert cat.by_id b.book_id b,
        RBTree.insert cat.by_title (title_key b) b⟩, "inserted") := by
  simp only [LibraryCatalog.add_book, hs]

/-- The shape of `add_book` when the id is already present. -/
theorem add_book_update_eq (cat : LibraryCatalog) (b : Book)
    (focus : Tree Int Book) (ctx : List (Frame Int Book))
    (hs : RBTree.search_node cat.by_id b.book_id = some (focus, ctx)) :
    LibraryCatalog.add_book cat b =
      (⟨RBTree.plug (withValue focus b) ctx,
        RBTree.insert (LibraryCatalog.remove_title_nodes_for_id cat.by_title b.book_id)
          (title_key b) b⟩, "updated") := by
  simp only [LibraryCatalog.add_book, hs]

/-- The shape of `delete_by_id` on an absent id. -/
theorem delete_by_id_absent_eq (cat : LibraryCatalog) (i : Int)
    (hs : RBTree.search cat.by_id i = none) :
    LibraryCatalog.delete_by_id cat i = (cat, false) := by
  simp only [LibraryCatalog.delete_by_id, hs]

/-- The shape of `delete_by_id` on a present id. -/
theorem delete_by_id_found_eq (cat : LibraryCatalog) (i : Int) (b : Book)
    (hs : RBTree.search cat.by_id i = some b) :
    LibraryCatalog.delete_by_id cat i =
      (⟨(RBTree.delete cat.by_id i).1,
        (RBTree.delete cat.by_title (title_key b)).1⟩, true) := by
  simp only [LibraryCatalog.delete_by_id, hs]

theorem wf_empty : WF LibraryCatalog.emptyCat :=
  ⟨List.Pairwise.nil, List.Pairwise.nil,
   fun kv h => absurd h (List.not_mem_nil kv),
   fun kv h => absurd h (List.not_mem_nil kv),
   fun kv h => absurd h (List.not_mem_nil kv),
   fun kv h => absurd h (List.not_mem_nil kv)⟩

/-- `add_book` preserves well-formedness. -/
theorem wf_add {cat : LibraryCatalog} (hw : WF cat) (b : Book) :
    WF (LibraryCatalog.add_book cat b).1 := by
  rcases hs : RBTree.search_node cat.by_id b.book_id with _ | ⟨focus, ctx⟩
  · rw [add_book_insert_eq cat b hs]
    have habs : b.book_id ∉ (RBTree.inorder cat.by_id).map Prod.fst := by
      intro hmem
      obtain ⟨v, hv⟩ := RBTree.alookup_mem_isSome hmem
      have h2 := RBTree.search_ctx_value b.book_id cat.by_id [] hw.ordId
      have hs' : RBTree.search_ctx cat.by_id b.book_id [] = none := hs
      rw [hs', hv] at h2
      exact Option.noConfusion h2
    refine ⟨RBTree.insert_ordered _ _ hw.ordId, RBTree.insert_ordered _ _ hw.ordTitle,
      ?_, ?_, ?_, ?_⟩
    · intro kv hkv
      rw [show (⟨RBTree.insert cat.by_id b.book_id b,
          RBTree.insert cat.by_title (title_key b) b⟩ : LibraryCatalog).by_id =
        RBTree.insert cat.by_id b.book_id b from rfl,
        RBTree.insert_inorder _ _ hw.ordId] at hkv
      rcases RBTree.mem_insList hkv with rfl | hkv
      · rfl
      · exact hw.idKey kv hkv
    · intro kv hkv
      rw [show (⟨RBTree.insert cat.by_id b.book_id b,
          RBTree.insert cat.by_title (title_key b) b⟩ : LibraryCatalog).by_title =
        RBTree.insert cat.by_title (title_key b) b from rfl,
        RBTree.insert_inorder _ _ hw.ordTitle] at hkv
      rcases RBTree.mem_insList hkv with rfl | hkv
      · rfl
      · exact hw.tKey kv hkv
    · intro kv hkv
      rw [show (⟨RBTree.insert cat.by_id b.book_id b,
          RBTree.insert cat.by_title (title_key b) b⟩ : LibraryCatalog).by_title =
        RBTree.insert cat.by_title (title_key b) b from rfl,
        RBTree.insert_inorder _ _ hw.ordTitle] at hkv
      rw [show (⟨RBTree.insert cat.by_id b.book_id b,
          RBTree.insert cat.by_title (title_key b) b⟩ : LibraryCatalog).by_id =
        RBTree.insert cat.by_id b.book_id b from rfl,
        RBTree.insert_inorder _ _ hw.ordId]
      rcases RBTree.mem_insList hkv with rfl | hkv
      · exact RBTree.alookup_insList_self _ _ _
      · have hne : kv.2.book_id ≠ b.book_id := by
          intro he
          apply habs
          rw [← he]
          exact List.mem_map_of_mem Prod.fst (RBTree.alookup_mem _ _ _ (hw.t2i kv hkv))
        rw [RBTree.alookup_insList_ne _ hne]
        exact hw.t2i kv hkv
    · intro kv hkv
      rw [show (⟨RBTree.insert cat.by_id b.book_id b,
          RBTree.insert cat.by_title (title_key b) b⟩ : LibraryCatalog).by_id =
        RBTree.insert cat.by_id b.book_id b from rfl,
        RBTree.insert_inorder _ _ hw.ordId] at hkv
      rw [show (⟨RBTree.insert cat.by_id b.book_id b,
          RBTree.insert cat.by_title (title_key b) b⟩ : LibraryCatalog).by_title =
        RBTree.insert cat.by_title (title_key b) b from rfl,
        RBTree.insert_inorder _ _ hw.ordTitle]
      rcases RBTree.mem_insList hkv with rfl | hkv
      · exact RBTree.alookup_insList_self _ _ _
      · have hne : title_key kv.2 ≠ title_key b := by
          intro he
          have hid := title_key_inj_id he
          rw [hw.idKey kv hkv] at hid
          exact habs (hid ▸ List.mem_map_of_mem Prod.fst hkv)
        rw [RBTree.alookup_insList_ne _ hne]
        exact hw.i2t kv hkv
  · rw [add_book_update_eq cat b focus ctx hs]
    have hrepl := RBTree.search_ctx_replace b.book_id b cat.by_id [] hw.ordId focus ctx hs
    have hid' : RBTree.inorder (RBTree.plug (withValue focus b) ctx) =
        RBTree.replaceList b.book_id b (RBTree.inorder cat.by_id) := by
      simpa using hrepl
    obtain ⟨ht1, ht1o⟩ := remove_title_inorder cat.by_title hw.ordTitle b.book_id
    have ht1s : List.Pairwise (· < ·)
        (((RBTree.inorder cat.by_title).filter
          (fun kv => decide ((ofLex kv.1).2 ≠ b.book_id))).map Prod.fst) := by
      have hsort := ht1o
      unfold RBTree.Ordered RBTree.keys at hsort
      rwa [ht1] at hsort
    have hpres : b.book_id ∈ (RBTree.inorder cat.by_id).map Prod.fst :=
      RBTree.search_ctx_mem b.book_id cat.by_id [] (focus, ctx) hs
    have hordId' : RBTree.Ordered (RBTree.plug (withValue focus b) ctx) := by
      unfold RBTree.Ordered RBTree.keys
      rw [hid', RBTree.replaceList_keys]
      exact hw.ordId
    refine ⟨hordId', RBTree.insert_ordered _ _ ht1o, ?_, ?_, ?_, ?_⟩
    · intro kv hkv
      rw [show (⟨RBTree.plug (withValue focus b) ctx,
          RBTree.insert (LibraryCatalog.remove_title_nodes_for_id cat.by_title b.book_id)
            (title_key b) b⟩ : LibraryCatalog).by_id =
        RBTree.plug (withValue focus b) ctx from rfl, hid'] at hkv
      rcases RBTree.mem_replaceList hkv with ⟨h1, h2, _⟩ | ⟨h1, _⟩
      · rw [h1, h2]
      · exact hw.idKey kv h1
    · intro kv hkv
      rw [show (⟨RBTree.plug (withValue focus b) ctx,
          RBTree.insert (LibraryCatalog.remove_title_nodes_for_id cat.by_title b.book_id)
            (title_key b) b⟩ : LibraryCatalog).by_title =
        RBTree.insert (LibraryCatalog.remove_title_nodes_for_id cat.by_title b.book_id)
          (title_key b) b from rfl,
        RBTree.insert_inorder _ _ ht1o] at hkv
      rcases RBTree.mem_insList hkv with rfl | hkv
      · rfl
      · rw [ht1] at hkv
        exact hw.tKey kv (List.mem_filter.mp hkv).1
    · intro kv hkv
      rw [show (⟨RBTree.plug (withValue focus b) ctx,
          RBTree.insert (LibraryCatalog.remove_title_nodes_for_id cat.by_title b.book_id)
            (title_key b) b⟩ : LibraryCatalog).by_title =
        RBTree.insert (LibraryCatalog.remove_title_nodes_for_id cat.by_title b.book_id)
          (title_key b) b from rfl,
        RBTree.insert_inorder _ _ ht1o] at hkv
      rw [show (⟨RBTree.plug (withValue focus b) ctx,
          RBTree.insert (LibraryCatalog.remove_title_nodes_for_id cat.by_title b.book_id)
            (title_key b) b⟩ : LibraryCatalog).by_id =
        RBTree.plug (withValue focus b) ctx from rfl, hid']
      rcases RBTree.mem_insList hkv with rfl | hkv
      · rw [RBTree.alookup_replaceList_self]
        obtain ⟨v, hv⟩ := RBTree.alookup_mem_isSome hpres
        rw [hv]
        rfl
      · rw [ht1] at hkv
        obtain ⟨hmem, hcond⟩ := List.mem_filter.mp hkv
        have hneid : kv.2.book_id ≠ b.book_id := by
          intro he
          have := hw.tKey kv hmem
          apply (by simpa using hcond : ¬ (ofLex kv.1).2 = b.book_id)
          rw [this]
          exact he
        rw [RBTree.alookup_replaceList_ne _ hneid]
        exact hw.t2i kv hmem
    · intro kv hkv
      rw [show (⟨RBTree.plug (withValue focus b) ctx,
          RBTree.insert (LibraryCatalog.remove_title_nodes_for_id cat.by_title b.book_id)
            (title_key b) b⟩ : LibraryCatalog).by_id =
        RBTree.plug (withValue focus b) ctx from rfl, hid'] at hkv
      rw [show (⟨RBTree.plug (withValue focus b) ctx,
          RBTree.insert (LibraryCatalog.remove_title_nodes_for_id cat.by_title b.book_id)
            (title_key b) b⟩ : LibraryCatalog).by_title =
        RBTree.insert (LibraryCatalog.remove_title_nodes_for_id cat.by_title b.book_id)
          (title_key b) b from rfl,
        RBTree.insert_inorder _ _ ht1o]
      rcases RBTree.mem_replaceList hkv with ⟨_, h2, _⟩ | ⟨h1, h2⟩
      · rw [h2]
        exact RBTree.alookup_insList_self _ _ _
      · have hneid : kv.2.book_id ≠ b.book_id := by
          intro he
          exact h2 ((hw.idKey kv h1).symm.trans he)
        have hnet : title_key kv.2 ≠ title_key b :=
          fun he => hneid (title_key_inj_id he)
        rw [RBTree.alookup_insList_ne _ hnet, ht1]
        apply mem_alookup_sorted ht1s
        refine List.mem_filter.mpr ⟨RBTree.alookup_mem _ _ _ (hw.i2t kv h1), ?_⟩
        simpa using hneid
  
/-- `delete_by_id` preserves well-formedness. -/
theorem wf_del {cat : LibraryCatalog} (hw : WF cat) (i : Int) :
    WF (LibraryCatalog.delete_by_id cat i).1 := by
  rcases hs : RBTree.search cat.by_id i with _ | b
  · rw [delete_by_id_absent_eq cat i hs]
    exact hw
  · rw [delete_by_id_found_eq cat i b hs]
    have hal : RBTree.alookup i (RBTree.inorder cat.by_id) = some b := by
      rw [← RBTree.search_alookup i cat.by_id hw.ordId]
      exact hs
    have hmemb : (i, b) ∈ RBTree.inorder cat.by_id := RBTree.alookup_mem _ _ _ hal
    have hbid : b.book_id = i := hw.idKey (i, b) hmemb
    refine ⟨RBTree.delete_ordered _ hw.ordId, RBTree.delete_ordered _ hw.ordTitle,
      ?_, ?_, ?_, ?_⟩
    · intro kv hkv
      rw [show (⟨(RBTree.delete cat.by_id i).1,
          (RBTree.delete cat.by_title (title_key b)).1⟩ : LibraryCatalog).by_id =
        (RBTree.delete cat.by_id i).1 from rfl,
        RBTree.delete_inorder _ _ hw.ordId] at hkv
      exact hw.idKey kv (RBTree.mem_delList.mp hkv).1
    · intro kv hkv
      rw [show (⟨(RBTree.delete cat.by_id i).1,
          (RBTree.delete cat.by_title (title_key b)).1⟩ : LibraryCatalog).by_title =
        (RBTree.delete cat.by_title (title_key b)).1 from rfl,
        RBTree.delete_inorder _ _ hw.ordTitle] at hkv
      exact hw.tKey kv (RBTree.mem_delList.mp hkv).1
    · intro kv hkv
      rw [show (⟨(RBTree.delete cat.by_id i).1,
          (RBTree.delete cat.by_title (title_key b)).1⟩ : LibraryCatalog).by_title =
        (RBTree.delete cat.by_title (title_key b)).1 from rfl,
        RBTree.delete_inorder _ _ hw.ordTitle] at hkv
      obtain ⟨hmem, hne⟩ := RBTree.mem_delList.mp hkv
      rw [show (⟨(RBTree.delete cat.by_id i).1,
          (RBTree.delete cat.by_title (title_key b)).1⟩ : LibraryCatalog).by_id =
        (RBTree.delete cat.by_id i).1 from rfl,
        RBTree.delete_inorder _ _ hw.ordId]
      have hneid : kv.2.book_id ≠ i := by
        intro he
        apply hne
        have h2 := hw.t2i kv hmem
        rw [he, hal] at h2
        injection h2 with h2
        rw [hw.tKey kv hmem, ← h2]
      rw [RBTree.alookup_delList_ne hneid]
      exact hw.t2i kv hmem
    · intro kv hkv
      rw [show (⟨(RBTree.delete cat.by_id i).1,
          (RBTree.delete cat.by_title (title_key b)).1⟩ : LibraryCatalog).by_id =
        (RBTree.delete cat.by_id i).1 from rfl,
        RBTree.delete_inorder _ _ hw.ordId] at hkv
      obtain ⟨hmem, hne⟩ := RBTree.mem_delList.mp hkv
      rw [show (⟨(RBTree.delete cat.by_id i).1,
          (RBTree.delete cat.by_title (title_key b)).1⟩ : LibraryCatalog).by_title =
        (RBTree.delete cat.by_title (title_key b)).1 from rfl,
        RBTree.delete_inorder _ _ hw.ordTitle]
      have hnet : title_key kv.2 ≠ title_key b := by
        intro he
        have h2 := title_key_inj_id he
        rw [hw.idKey kv hmem, hbid] at h2
        exact hne h2
      rw [RBTree.alookup_delList_ne hnet]
      exact hw.i2t kv hmem

/-- The bulk-load loop preserves well-formedness. -/
theorem wf_loadGo : ∀ (arr : List BookDict) (cat : LibraryCatalog), WF cat →
    WF (loadGo cat arr).1 := by
  intro arr
  induction arr with
  | nil => intro cat hw; exact hw
  | cons d rest ih =>
    intro cat hw
    rcases hd : Book.from_dict d with e | b
    · simpa [loadGo, hd] using hw
    · rw [show loadGo cat (d :: rest) = loadGo (LibraryCatalog.add_book cat b).1 rest
        from by simp [loadGo, hd]]
      exact ih _ (wf_add hw b)

/-- Every reachable catalog is well-formed. -/
theorem wf_reachable {cat : LibraryCatalog} (h : Reachable cat) : WF cat := by
  induction h with
  | start => exact wf_empty
  | add b _ ih => exact wf_add ih b
  | del i _ ih => exact wf_del ih i
  | load arr => exact wf_loadGo arr _ wf_empty

/-! ## Auxiliary lemmas for the claim theorems -/

theorem replaceList_self_value {α β : Type} [LinearOrder α] (k : α) (v : β) :
    ∀ (l : List (α × β)), (∀ p ∈ l, p.1 = k → p.2 = v) → RBTree.replaceList k v l = l := by
  intro l
  induction l with
  | nil => intro _; rfl
  | cons p rest ih =>
    intro h
    rw [RBTree.replaceList_cons, ih (fun q hq => h q (List.mem_cons_of_mem _ hq))]
    by_cases hp : p.1 = k
    · rw [if_pos hp, ← h p (List.mem_cons_self _ _) hp]
    · rw [if_neg hp]

theorem insList_mem_replaceList {α β : Type} [LinearOrder α] (k : α) (v : β) :
    ∀ (l : List (α × β)), List.Pairwise (· < ·) (l.map Prod.fst) →
      k ∈ l.map Prod.fst → RBTree.insList k v l = RBTree.replaceList k v l := by
  intro l
  induction l with
  | nil => intro _ hm; simp at hm
  | cons p rest ih =>
    intro hs hm
    rw [List.map_cons, List.pairwise_cons] at hs
    obtain ⟨hp, hrest⟩ := hs
    obtain ⟨k', v'⟩ := p
    rw [List.map_cons, List.mem_cons] at hm
    by_cases h1 : k < k'
    · exfalso
      rcases hm with rfl | hm
      · exact lt_irrefl k h1
      · exact lt_irrefl k (lt_trans h1 (hp k hm))
    · by_cases h2 : k' < k
      · have hne : ¬ k' = k := ne_of_lt h2
        rw [show RBTree.insList k v ((k', v') :: rest) = (k', v') :: RBTree.insList k v rest
          from by simp [RBTree.insList, h1, h2]]
        rw [RBTree.replaceList_cons, if_neg hne]
        rcases hm with rfl | hm
        · exact absurd h2 (lt_irrefl k)
        · rw [ih hrest hm]
      · have he : k' = k := le_antisymm (not_lt.mp h1) (not_lt.mp h2)
        subst he
        rw [show RBTree.insList k' v ((k', v') :: rest) = (k', v) :: rest
          from by simp [RBTree.insList, lt_irrefl]]
        rw [RBTree.replaceList_cons, if_pos rfl]
        rw [RBTree.replaceList_eq_self k' v rest
          (fun q hq => ne_of_gt (hp q.1 (List.mem_map_of_mem _ hq)))]

theorem filter_insList_id_drop (k : TitleKey) (v : Book) (i : Int)
    (hP : decide ((ofLex k).2 ≠ i) = false) :
    ∀ l : List (TitleKey × Book), (∀ p ∈ l, decide ((ofLex p.1).2 ≠ i) = true) →
      (RBTree.insList k v l).filter (fun kv => decide ((ofLex kv.1).2 ≠ i)) = l := by
  intro l
  induction l with
  | nil =>
    intro _
    rw [show RBTree.insList k v ([] : List (TitleKey × Book)) = [(k, v)] from rfl]
    have hP2 : (ofLex k).2 = i := by simpa using hP
    simp [hP2]
  | cons q rest ih =>
    intro hall
    obtain ⟨k', v'⟩ := q
    by_cases h1 : k < k'
    · rw [show RBTree.insList k v ((k', v') :: rest) = (k, v) :: (k', v') :: rest
        from by simp [RBTree.insList, h1]]
      rw [List.filter_cons_of_neg (by simp [hP])]
      exact List.filter_eq_self.mpr hall
    · by_cases h2 : k' < k
      · rw [show RBTree.insList k v ((k', v') :: rest) = (k', v') :: RBTree.insList k v rest
          from by simp [RBTree.insList, h1, h2]]
        rw [List.filter_cons_of_pos
            (by simpa using hall (k', v') (List.mem_cons_self _ _)),
          ih (fun p hp => hall p (List.mem_cons_of_mem _ hp))]
      · exfalso
        have he : k' = k := le_antisymm (not_lt.mp h1) (not_lt.mp h2)
        have := hall (k', v') (List.mem_cons_self _ _)
        rw [he, hP] at this
        exact Bool.noConfusion this

theorem loadGo_none_iff : ∀ (arr : List BookDict) (cat : LibraryCatalog),
    ((loadGo cat arr).2 = none ↔ ∀ d ∈ arr, ∃ b, Book.from_dict d = .ok b) := by
  intro arr
  induction arr with
  | nil => intro cat; simp [loadGo]
  | cons d rest ih =>
    intro cat
    rcases hd : Book.from_dict d with e | b
    · rw [show loadGo cat (d :: rest) = (cat, some e) from by simp [loadGo, hd]]
      constructor
      · intro h
        exact absurd h (by simp)
      · intro h
        obtain ⟨b, hb⟩ := h d (List.mem_cons_self _ _)
        rw [hd] at hb
        exact absurd hb (by simp)
    · rw [show loadGo cat (d :: rest) = loadGo (LibraryCatalog.add_book cat b).1 rest
        from by simp [loadGo, hd]]
      rw [ih]
      constructor
      · intro h d2 hd2
        rcases List.mem_cons.mp hd2 with rfl | hd2
        · exact ⟨b, hd⟩
        · exact h d2 hd2
      · intro h d2 hd2
        exact h d2 (List.mem_cons_of_mem _ hd2)

/-! ## The claims -/

/-- C2: for every sequence of `RBTree.insert` / `RBTree.delete` operations the
resulting tree satisfies the red-black invariants — black root, no red node
with a red child, and equal black count on every root-to-sentinel path
(`RBInv`).  Quantifying over all sequences covers the state after each
operation of any longer sequence. -/
theorem C2_rb_invariants {α β : Type} [LinearOrder α] (ops : List (RBTree.RBOp α β)) :
    RBTree.RBInv (RBTree.applyOps ops) := by
  obtain ⟨n, h⟩ := RBTree.applyOps_isRB ops
  exact RBTree.isRB_inv h

/-- C4: inserting a key that is already present replaces the stored value in
place — the skeleton (shape, parent/child structure, colors, keys) is exactly
as before, no fix-up runs, and the contents change only at that key's value. -/
theorem C4_insert_existing_value_replacement {α β : Type} [LinearOrder α] {t : Tree α β}
    (k : α) (v : β) (ho : RBTree.Ordered t) (hmem : k ∈ RBTree.keys t) :
    RBTree.stripVals (RBTree.insert t k v) = RBTree.stripVals t ∧
    RBTree.inorder (RBTree.insert t k v) = RBTree.replaceList k v (RBTree.inorder t) := by
  constructor
  · have h := RBTree.insertGo_stripVals k v t [] ho hmem
    rw [show RBTree.insert t k v = RBTree.insertGo t k v [] from rfl, h]
    rfl
  · rw [RBTree.insert_inorder k v ho, insList_mem_replaceList k v _ ho hmem]

theorem C4_witness :
    RBTree.stripVals (RBTree.insert
        (RBTree.insert (RBTree.insert (.nil : Tree Int Int) 1 10) 2 20) 1 99) =
      RBTree.stripVals (RBTree.insert (RBTree.insert (.nil : Tree Int Int) 1 10) 2 20) ∧
    RBTree.inorder (RBTree.insert
        (RBTree.insert (RBTree.insert (.nil : Tree Int Int) 1 10) 2 20) 1 99) =
      RBTree.replaceList 1 99
        (RBTree.inorder (RBTree.insert (RBTree.insert (.nil : Tree Int Int) 1 10) 2 20)) :=
  C4_insert_existing_value_replacement 1 99
    (show List.Pairwise (· < ·) ((RBTree.inorder
      (RBTree.insert (RBTree.insert (.nil : Tree Int Int) 1 10) 2 20)).map Prod.fst)
      from by decide)
    (by decide)

/-- C6: deleting an absent identifier returns `false` and the store itself,
both indices untouched; absence is reported in the boolean, not by failure. -/
theorem C6_delete_absent (cat : LibraryCatalog) (i : Int) (habs : i ∉ idsOfId cat) :
    LibraryCatalog.delete_by_id cat i = (cat, false) := by
  have hs : RBTree.search cat.by_id i = none := by
    unfold RBTree.search
    rw [RBTree.search_node_none i cat.by_id habs]
  exact delete_by_id_absent_eq cat i hs

theorem C6_witness :
    LibraryCatalog.delete_by_id LibraryCatalog.emptyCat 7 =
      (LibraryCatalog.emptyCat, false) :=
  C6_delete_absent LibraryCatalog.emptyCat 7 (by decide)

/-- C1 (counterexample): after upserting `(101, "Title A", …)` into a fresh
store — a reachable state — the text-index key's first component is the
case-folded `"title a"`, not the verbatim `title` field `"Title A"`, so the
claimed exact-equality invariant fails. -/
theorem C1_counterexample :
    Reachable (LibraryCatalog.add_book LibraryCatalog.emptyCat
      ⟨101, "Title A", "", 0, 1⟩).1 ∧
    ¬ C1ExactProp (LibraryCatalog.add_book LibraryCatalog.emptyCat
      ⟨101, "Title A", "", 0, 1⟩).1 := by
  refine ⟨Reachable.add _ Reachable.start, ?_⟩
  intro h
  unfold C1ExactProp at h
  obtain ⟨-, h2⟩ := h
  have h3 := h2 (title_key ⟨101, "Title A", "", 0, 1⟩, (⟨101, "Title A", "", 0, 1⟩ : Book))
    (by
      rw [show RBTree.inorder (LibraryCatalog.add_book LibraryCatalog.emptyCat
          ⟨101, "Title A", "", 0, 1⟩).1.by_title =
        [(title_key ⟨101, "Title A", "", 0, 1⟩, ⟨101, "Title A", "", 0, 1⟩)] from rfl]
      exact List.mem_singleton.mpr rfl)
  obtain ⟨b, hb1, hb2⟩ := h3
  have hb1' : (some (⟨101, "Title A", "", 0, 1⟩ : Book) : Option Book) = some b :=
    Eq.trans (by rfl) hb1
  injection hb1' with hb
  rw [← hb] at hb2
  exact absurd hb2 (by decide)

/-- C1 (amended): on every reachable state the identifier sets of the two
indices coincide, and each text-index key's first component is the
case-folded (`str.lower()`) title of the record indexed under its id. -/
theorem C1_amended_cross_index (cat : LibraryCatalog) (hr : Reachable cat) :
    C1FoldedProp cat := by
  have hw := wf_reachable hr
  unfold C1FoldedProp idsOfId idsOfTitle
  constructor
  · intro i
    constructor
    · intro hi
      obtain ⟨kv, hkv, hfst⟩ := List.mem_map.mp hi
      have hmem := RBTree.alookup_mem _ _ _ (hw.i2t kv hkv)
      refine List.mem_map.mpr ⟨(title_key kv.2, kv.2), hmem, ?_⟩
      show (ofLex (title_key kv.2)).2 = i
      rw [show (ofLex (title_key kv.2)).2 = kv.2.book_id from rfl, hw.idKey kv hkv]
      exact hfst
    · intro hi
      obtain ⟨kv, hkv, hsnd⟩ := List.mem_map.mp hi
      have hmem := RBTree.alookup_mem _ _ _ (hw.t2i kv hkv)
      refine List.mem_map.mpr ⟨(kv.2.book_id, kv.2), hmem, ?_⟩
      show kv.2.book_id = i
      rw [show kv.2.book_id = (ofLex (title_key kv.2)).2 from rfl, ← hw.tKey kv hkv]
      exact hsnd
  · intro kv hkv
    refine ⟨kv.2, ?_, ?_⟩
    · rw [show (ofLex kv.1).2 = kv.2.book_id from by rw [hw.tKey kv hkv]; rfl]
      rw [show LibraryCatalog.search_by_id cat kv.2.book_id =
        RBTree.search cat.by_id kv.2.book_id from rfl]
      rw [RBTree.search_alookup _ _ hw.ordId]
      exact hw.t2i kv hkv
    · rw [hw.tKey kv hkv]
      rfl

theorem C1_witness : C1FoldedProp LibraryCatalog.emptyCat :=
  C1_amended_cross_index LibraryCatalog.emptyCat Reachable.start

/-- C3 (counterexample): a reachable store holding a record with identifier
`-2^63 < -sys.maxsize` and title `"a"`; the exact search for `"a"` misses it
and returns the empty list, though the record's folded title equals the
query — because the anchor `(tkey, -sys.maxsize)` lies above the record's key. -/
theorem C3_counterexample :
    Reachable (LibraryCatalog.add_book LibraryCatalog.emptyCat
      ⟨-(2 ^ 63), "a", "", 0, 1⟩).1 ∧
    LibraryCatalog.search_by_title_exact (LibraryCatalog.add_book LibraryCatalog.emptyCat
      ⟨-(2 ^ 63), "a", "", 0, 1⟩).1 "a" = [] ∧
    LibraryCatalog.list_all_by_title (LibraryCatalog.add_book LibraryCatalog.emptyCat
      ⟨-(2 ^ 63), "a", "", 0, 1⟩).1 = [⟨-(2 ^ 63), "a", "", 0, 1⟩] :=
  ⟨Reachable.add _ Reachable.start, rfl, rfl⟩

/-- C3 (amended): on reachable states whose identifiers are all at least
`-sys.maxsize`, the exact-title search returns exactly the records whose
folded title equals the folded query, in text-index order — i.e. ascending
identifier among equal folded titles. -/
theorem C3_amended_exact_search (cat : LibraryCatalog) (hr : Reachable cat)
    (title : String)
    (hb : ∀ b ∈ LibraryCatalog.list_all_by_id cat, -sys_maxsize ≤ b.book_id) :
    LibraryCatalog.search_by_title_exact cat title =
      (LibraryCatalog.list_all_by_title cat).filter
        (fun b => decide (str_lower b.title = str_lower title)) :=
  search_exact_eq cat (wf_reachable hr) title hb

theorem C3_witness :
    LibraryCatalog.search_by_title_exact (LibraryCatalog.add_book
      LibraryCatalog.emptyCat ⟨1, "A", "", 0, 1⟩).1 "a" =
      (LibraryCatalog.list_all_by_title (LibraryCatalog.add_book
        LibraryCatalog.emptyCat ⟨1, "A", "", 0, 1⟩).1).filter
        (fun b => decide (str_lower b.title = str_lower "a")) :=
  C3_amended_exact_search _ (Reachable.add _ Reachable.start) "a" (by decide)

/-- C5: upserting a record whose id is absent reports `"inserted"`, upserting
it again reports `"updated"`, and the second call leaves the observable
contents (in-order listings) of both indices exactly as after the first. -/
theorem C5_upsert_idempotent (cat : LibraryCatalog) (hr : Reachable cat) (b : Book)
    (habs : b.book_id ∉ idsOfId cat) :
    (LibraryCatalog.add_book cat b).2 = "inserted" ∧
    (LibraryCatalog.add_book (LibraryCatalog.add_book cat b).1 b).2 = "updated" ∧
    RBTree.inorder (LibraryCatalog.add_book (LibraryCatalog.add_book cat b).1 b).1.by_id =
      RBTree.inorder (LibraryCatalog.add_book cat b).1.by_id ∧
    RBTree.inorder (LibraryCatalog.add_book (LibraryCatalog.add_book cat b).1 b).1.by_title =
      RBTree.inorder (LibraryCatalog.add_book cat b).1.by_title := by
  have hw := wf_reachable hr
  have habs' : b.book_id ∉ (RBTree.inorder cat.by_id).map Prod.fst := habs
  have hs1 : RBTree.search_node cat.by_id b.book_id = none :=
    RBTree.search_node_none _ _ habs'
  have hsh1 := add_book_insert_eq cat b hs1
  have hcat1id : RBTree.inorder (LibraryCatalog.add_book cat b).1.by_id =
      RBTree.insList b.book_id b (RBTree.inorder cat.by_id) := by
    rw [hsh1]
    exact RBTree.insert_inorder _ _ hw.ordId
  have hcat1title : RBTree.inorder (LibraryCatalog.add_book cat b).1.by_title =
      RBTree.insList (title_key b) b (RBTree.inorder cat.by_title) := by
    rw [hsh1]
    exact RBTree.insert_inorder _ _ hw.ordTitle
  have hw1 := wf_add hw b
  rcases hs2 : RBTree.search_node (LibraryCatalog.add_book cat b).1.by_id b.book_id
    with _ | ⟨focus, ctx⟩
  · exfalso
    have hval := RBTree.search_ctx_value b.book_id
      (LibraryCatalog.add_book cat b).1.by_id [] hw1.ordId
    have hs2' : RBTree.search_ctx (LibraryCatalog.add_book cat b).1.by_id
        b.book_id [] = none := hs2
    rw [hs2', hcat1id, RBTree.alookup_insList_self] at hval
    exact Option.noConfusion hval
  · have hsh2 := add_book_update_eq (LibraryCatalog.add_book cat b).1 b focus ctx hs2
    have hby_id2 : (LibraryCatalog.add_book (LibraryCatalog.add_book cat b).1 b).1.by_id =
        RBTree.plug (withValue focus b) ctx := by rw [hsh2]
    have hby_title2 :
        (LibraryCatalog.add_book (LibraryCatalog.add_book cat b).1 b).1.by_title =
        RBTree.insert (LibraryCatalog.remove_title_nodes_for_id
          (LibraryCatalog.add_book cat b).1.by_title b.book_id) (title_key b) b := by
      rw [hsh2]
    refine ⟨by rw [hsh1], by rw [hsh2], ?_, ?_⟩
    · have hrepl := RBTree.search_ctx_replace b.book_id b
        (LibraryCatalog.add_book cat b).1.by_id [] hw1.ordId focus ctx hs2
      have hid2 : RBTree.inorder (RBTree.plug (withValue focus b) ctx) =
          RBTree.replaceList b.book_id b
            (RBTree.inorder (LibraryCatalog.add_book cat b).1.by_id) := by
        simpa using hrepl
      rw [hby_id2, hid2]
      apply replaceList_self_value
      intro q hq hqk
      rw [hcat1id] at hq
      rcases RBTree.mem_insList hq with rfl | hq
      · rfl
      · exact absurd (hqk ▸ List.mem_map_of_mem Prod.fst hq) habs'
    · rw [hby_title2]
      obtain ⟨hrm, hrmo⟩ := remove_title_inorder
        (LibraryCatalog.add_book cat b).1.by_title hw1.ordTitle b.book_id
      rw [RBTree.insert_inorder _ _ hrmo, hrm, hcat1title]
      have hall2 : ∀ q ∈ RBTree.inorder cat.by_title,
          decide ((ofLex q.1).2 ≠ b.book_id) = true := by
        intro q hq
        have hkeq := hw.tKey q hq
        have hmm := List.mem_map_of_mem Prod.fst (RBTree.alookup_mem _ _ _ (hw.t2i q hq))
        have hne : q.2.book_id ≠ b.book_id := fun he => habs' (he ▸ hmm)
        rw [hkeq]
        exact (show decide (q.2.book_id ≠ b.book_id) = true from by simpa using hne)
      rw [filter_insList_id_drop (title_key b) b b.book_id
        (show decide (¬ b.book_id = b.book_id) = false from by simp)
        (RBTree.inorder cat.by_title) hall2]

theorem C5_witness :
    (LibraryCatalog.add_book LibraryCatalog.emptyCat ⟨1, "T", "a", 2000, 2⟩).2 =
      "inserted" ∧
    (LibraryCatalog.add_book (LibraryCatalog.add_book LibraryCatalog.emptyCat
      ⟨1, "T", "a", 2000, 2⟩).1 ⟨1, "T", "a", 2000, 2⟩).2 = "updated" ∧
    RBTree.inorder (LibraryCatalog.add_book (LibraryCatalog.add_book
      LibraryCatalog.emptyCat ⟨1, "T", "a", 2000, 2⟩).1 ⟨1, "T", "a", 2000, 2⟩).1.by_id =
      RBTree.inorder (LibraryCatalog.add_book LibraryCatalog.emptyCat
        ⟨1, "T", "a", 2000, 2⟩).1.by_id ∧
    RBTree.inorder (LibraryCatalog.add_book (LibraryCatalog.add_book
      LibraryCatalog.emptyCat ⟨1, "T", "a", 2000, 2⟩).1 ⟨1, "T", "a", 2000, 2⟩).1.by_title =
      RBTree.inorder (LibraryCatalog.add_book LibraryCatalog.emptyCat
        ⟨1, "T", "a", 2000, 2⟩).1.by_title :=
  C5_upsert_idempotent LibraryCatalog.emptyCat Reachable.start
    ⟨1, "T", "a", 2000, 2⟩ (by decide)

/-- C7 (counterexample): a reachable store holding one record with identifier
`-2^63 < -sys.maxsize`; the empty-prefix search returns nothing rather than
the full catalog, because the record's key lies below the anchor. -/
theorem C7_counterexample :
    Reachable (LibraryCatalog.add_book LibraryCatalog.emptyCat
      ⟨-(2 ^ 63), "", "", 0, 1⟩).1 ∧
    LibraryCatalog.search_by_title_prefix (LibraryCatalog.add_book
      LibraryCatalog.emptyCat ⟨-(2 ^ 63), "", "", 0, 1⟩).1 "" = [] ∧
    LibraryCatalog.list_all_by_title (LibraryCatalog.add_book LibraryCatalog.emptyCat
      ⟨-(2 ^ 63), "", "", 0, 1⟩).1 = [⟨-(2 ^ 63), "", "", 0, 1⟩] :=
  ⟨Reachable.add _ Reachable.start, rfl, rfl⟩

/-- C7 (amended): on reachable states whose identifiers are all at least
`-sys.maxsize`, the empty-prefix search returns the entire catalog in
text-index order (folded title, then identifier). -/
theorem C7_amended_empty_prefix_all (cat : LibraryCatalog) (hr : Reachable cat)
    (hb : ∀ b ∈ LibraryCatalog.list_all_by_id cat, -sys_maxsize ≤ b.book_id) :
    LibraryCatalog.search_by_title_prefix cat "" =
      LibraryCatalog.list_all_by_title cat := by
  rw [search_prefix_eq cat (wf_reachable hr) "" hb]
  rw [List.filter_eq_self]
  intro b _
  show ((str_lower "").data).isPrefixOf (str_lower b.title).data = true
  cases h : (str_lower b.title).data <;> rfl

theorem C7_witness :
    LibraryCatalog.search_by_title_prefix (LibraryCatalog.add_book
      LibraryCatalog.emptyCat ⟨5, "Some Title", "", 0, 1⟩).1 "" =
      LibraryCatalog.list_all_by_title (LibraryCatalog.add_book
        LibraryCatalog.emptyCat ⟨5, "Some Title", "", 0, 1⟩).1 :=
  C7_amended_empty_prefix_all _ (Reachable.add _ Reachable.start) (by decide)

/-- C8: from an empty store, upsert `(101, "Title A")` then `(101,
"Title B")`: the id search returns the `"Title B"` record, the exact search
for `"title a"` is empty, and the exact search for `"title b"` returns
exactly record 101. -/
theorem C8_scenario :
    LibraryCatalog.search_by_id (LibraryCatalog.add_book (LibraryCatalog.add_book
        LibraryCatalog.emptyCat ⟨101, "Title A", "au", 1999, 2⟩).1
        ⟨101, "Title B", "au", 1999, 2⟩).1 101 =
      some ⟨101, "Title B", "au", 1999, 2⟩ ∧
    LibraryCatalog.search_by_title_exact (LibraryCatalog.add_book
        (LibraryCatalog.add_book LibraryCatalog.emptyCat
          ⟨101, "Title A", "au", 1999, 2⟩).1 ⟨101, "Title B", "au", 1999, 2⟩).1
      "title a" = [] ∧
    LibraryCatalog.search_by_title_exact (LibraryCatalog.add_book
        (LibraryCatalog.add_book LibraryCatalog.emptyCat
          ⟨101, "Title A", "au", 1999, 2⟩).1 ⟨101, "Title B", "au", 1999, 2⟩).1
      "title b" = [⟨101, "Title B", "au", 1999, 2⟩] :=
  ⟨rfl, rfl, rfl⟩

/-- C9 (counterexample): a bulk load whose two records carry the same
identifier surfaces no error at all — the duplicate is silently applied as an
update, so nothing is "surfaced to the caller per-record". -/
theorem C9_counterexample :
    (load_from_records
      [⟨some 101, some "Title A", none, none, none⟩,
       ⟨some 101, some "Title B", none, none, none⟩]).2 = none ∧
    LibraryCatalog.search_by_id (load_from_records
      [⟨some 101, some "Title A", none, none, none⟩,
       ⟨some 101, some "Title B", none, none, none⟩]).1 101 =
      some ⟨101, "Title B", "", 0, 1⟩ :=
  ⟨rfl, rfl⟩

/-- C9 (amended): every bulk load leaves a well-formed store (the cross-index
invariant holds for whatever prefix of the batch was applied), and the load
reports clean (`none`) exactly when every record of the batch parses — a
record missing `book_id` or `title` is surfaced; duplicated identifiers
within a batch are not. -/
theorem C9_amended_load (arr : List BookDict) :
    WF (load_from_records arr).1 ∧
    ((load_from_records arr).2 = none ↔ ∀ d ∈ arr, ∃ b, Book.from_dict d = .ok b) :=
  ⟨wf_loadGo arr LibraryCatalog.emptyCat wf_empty,
   loadGo_none_iff arr LibraryCatalog.emptyCat⟩

/-- C10: on every reachable state the two listings have equal length and are
permutations of each other, and the record stored under a text-index key is
exactly the record `search_by_id` returns for its identifier. -/
theorem C10_index_agreement (cat : LibraryCatalog) (hr : Reachable cat) :
    (LibraryCatalog.list_all_by_id cat).length =
      (LibraryCatalog.list_all_by_title cat).length ∧
    (LibraryCatalog.list_all_by_id cat).Perm (LibraryCatalog.list_all_by_title cat) ∧
    ∀ kv ∈ RBTree.inorder cat.by_title,
      LibraryCatalog.search_by_id cat kv.2.book_id = some kv.2 := by
  have hw := wf_reachable hr
  have hkeys_id : ((RBTree.inorder cat.by_id).map Prod.fst).Nodup :=
    hw.ordId.imp (fun h => ne_of_lt h)
  have hkeys_title : ((RBTree.inorder cat.by_title).map Prod.fst).Nodup :=
    hw.ordTitle.imp (fun h => ne_of_lt h)
  have hid_eq : (RBTree.inorder cat.by_id).map Prod.fst =
      ((RBTree.inorder cat.by_id).map Prod.snd).map Book.book_id := by
    rw [List.map_map]
    exact List.map_congr_left (fun kv hkv => (hw.idKey kv hkv).symm)
  have htitle_eq : (RBTree.inorder cat.by_title).map Prod.fst =
      ((RBTree.inorder cat.by_title).map Prod.snd).map title_key := by
    rw [List.map_map]
    exact List.map_congr_left (fun kv hkv => hw.tKey kv hkv)
  have hnodup_id : ((RBTree.inorder cat.by_id).map Prod.snd).Nodup := by
    rw [hid_eq] at hkeys_id
    exact hkeys_id.of_map _
  have hnodup_title : ((RBTree.inorder cat.by_title).map Prod.snd).Nodup := by
    rw [htitle_eq] at hkeys_title
    exact hkeys_title.of_map _
  have hperm : (LibraryCatalog.list_all_by_id cat).Perm
      (LibraryCatalog.list_all_by_title cat) := by
    rw [show LibraryCatalog.list_all_by_id cat =
      (RBTree.inorder cat.by_id).map Prod.snd from rfl]
    rw [show LibraryCatalog.list_all_by_title cat =
      (RBTree.inorder cat.by_title).map Prod.snd from rfl]
    rw [List.perm_ext_iff_of_nodup hnodup_id hnodup_title]
    intro b
    constructor
    · intro hb
      obtain ⟨kv, hkv, rfl⟩ := List.mem_map.mp hb
      exact List.mem_map.mpr ⟨(title_key kv.2, kv.2),
        RBTree.alookup_mem _ _ _ (hw.i2t kv hkv), rfl⟩
    · intro hb
      obtain ⟨kv, hkv, rfl⟩ := List.mem_map.mp hb
      exact List.mem_map.mpr ⟨(kv.2.book_id, kv.2),
        RBTree.alookup_mem _ _ _ (hw.t2i kv hkv), rfl⟩
  refine ⟨hperm.length_eq, hperm, ?_⟩
  intro kv hkv
  rw [show LibraryCatalog.search_by_id cat kv.2.book_id =
    RBTree.search cat.by_id kv.2.book_id from rfl]
  rw [RBTree.search_alookup _ _ hw.ordId]
  exact hw.t2i kv hkv

theorem C10_witness :
    (LibraryCatalog.list_all_by_id LibraryCatalog.emptyCat).length =
      (LibraryCatalog.list_all_by_title LibraryCatalog.emptyCat).length ∧
    (LibraryCatalog.list_all_by_id LibraryCatalog.emptyCat).Perm
      (LibraryCatalog.list_all_by_title LibraryCatalog.emptyCat) ∧
    ∀ kv ∈ RBTree.inorder LibraryCatalog.emptyCat.by_title,
      LibraryCatalog.search_by_id LibraryCatalog.emptyCat kv.2.book_id = some kv.2 :=
  C10_index_agreement LibraryCatalog.emptyCat Reachable.start

end LibCat